import Mathlib

/-!
Verification development for the shortest-path search engine of the
`parte-2` package: a Dial's-bucket open list (`abierta.py`), a DIMACS graph
store (`grafo.py`) and the A*/Dijkstra solvers (`algoritmo.py`).

Python dictionaries are modelled as association lists (`List (Nat × α)`)
with first-match lookup; `collections.deque` buckets are modelled as Lean
lists with append at the back and pop at the front.  Edge weights, `g`
values and bucket keys are natural numbers, following the documented data
model (DIMACS non-negative integer weights).  The transcendental haversine
heuristic value is abstracted as a function parameter: the solvers only
ever observe `int(g + h)` which, for integer `g` and non-negative real
`h`, equals `g + ⌊h⌋`, so the parameter stands for the floored heuristic.
-/

set_option autoImplicit false

namespace P2

/-! ## Association-list model of Python dict -/

/-- First-match lookup, the model of `d[k]` / `d.get(k)`. -/
def alook {α : Type} : List (Nat × α) → Nat → Option α
  | [], _ => none
  | (k, a) :: rest, k' => if k' = k then some a else alook rest k'

/-- `d[k] = a`: replace the first binding of `k`, or append a new one. -/
def aset {α : Type} : List (Nat × α) → Nat → α → List (Nat × α)
  | [], k, a => [(k, a)]
  | (k0, a0) :: rest, k, a =>
      if k = k0 then (k, a) :: rest else (k0, a0) :: aset rest k a

/-- `del d[k]`: remove the first binding of `k`. -/
def aerase {α : Type} : List (Nat × α) → Nat → List (Nat × α)
  | [], _ => []
  | (k0, a0) :: rest, k => if k = k0 then rest else (k0, a0) :: aerase rest k

/-- The keys of an association list. -/
def akeys {α : Type} (l : List (Nat × α)) : List Nat := l.map Prod.fst

/-- No key bound twice (true of every Python dict). -/
def NodupKeys {α : Type} (l : List (Nat × α)) : Prop := (akeys l).Nodup

/-- `min(d.keys())`, `none` on an empty dict. -/
def minKeys {α : Type} : List (Nat × α) → Option Nat
  | [] => none
  | (k, _) :: rest =>
      match minKeys rest with
      | none => some k
      | some m => some (min k m)

@[simp] theorem alook_nil {α : Type} (k : Nat) : alook ([] : List (Nat × α)) k = none := rfl

@[simp] theorem alook_cons {α : Type} (k0 : Nat) (a0 : α) (rest : List (Nat × α)) (k : Nat) :
    alook ((k0, a0) :: rest) k = if k = k0 then some a0 else alook rest k := rfl

theorem alook_aset_self {α : Type} (l : List (Nat × α)) (k : Nat) (a : α) :
    alook (aset l k a) k = some a := by
  induction l with
  | nil => simp [aset]
  | cons p rest ih =>
    obtain ⟨k0, a0⟩ := p
    by_cases h : k = k0
    · simp [aset, h]
    · simp [aset, h, ih]

theorem alook_aset_ne {α : Type} (l : List (Nat × α)) (k k' : Nat) (a : α) (h : k' ≠ k) :
    alook (aset l k a) k' = alook l k' := by
  induction l with
  | nil => simp [aset, h]
  | cons p rest ih =>
    obtain ⟨k0, a0⟩ := p
    by_cases hk : k = k0
    · subst hk; simp [aset, h]
    · by_cases hk' : k' = k0 <;> simp [aset, hk, hk', ih]

theorem alook_aerase_ne {α : Type} (l : List (Nat × α)) (k k' : Nat) (h : k' ≠ k) :
    alook (aerase l k) k' = alook l k' := by
  induction l with
  | nil => simp [aerase]
  | cons p rest ih =>
    obtain ⟨k0, a0⟩ := p
    by_cases hk : k = k0
    · subst hk; simp [aerase, h]
    · by_cases hk' : k' = k0 <;> simp [aerase, hk, hk', ih]

theorem akeys_mem_of_alook {α : Type} {l : List (Nat × α)} {k : Nat} {a : α}
    (h : alook l k = some a) : k ∈ akeys l := by
  induction l with
  | nil => simp [alook] at h
  | cons p rest ih =>
    obtain ⟨k0, a0⟩ := p
    by_cases hk : k = k0
    · subst hk; simp [akeys]
    · simp only [alook_cons, if_neg hk] at h
      simpa [akeys] using Or.inr (by simpa [akeys] using ih h)

theorem alook_isSome_of_mem_akeys {α : Type} {l : List (Nat × α)} {k : Nat}
    (h : k ∈ akeys l) : (alook l k).isSome := by
  induction l with
  | nil => simp [akeys] at h
  | cons p rest ih =>
    obtain ⟨k0, a0⟩ := p
    by_cases hk : k = k0
    · simp [alook, hk]
    · simp only [akeys, List.map_cons, List.mem_cons] at h
      rcases h with h | h

      · exact absurd h hk
      · simpa [alook, hk] using ih h

theorem alook_eq_none_of_not_mem {α : Type} {l : List (Nat × α)} {k : Nat}
    (h : k ∉ akeys l) : alook l k = none := by
  cases hl : alook l k with
  | none => rfl
  | some a => exact absurd (akeys_mem_of_alook hl) h

theorem length_aerase_lt {α : Type} {l : List (Nat × α)} {k : Nat}
    (h : (alook l k).isSome) : (aerase l k).length < l.length := by
  induction l with
  | nil => simp [alook] at h
  | cons p rest ih =>
    obtain ⟨k0, a0⟩ := p
    by_cases hk : k = k0
    · simp [aerase, hk]
    · simp only [alook_cons, if_neg hk] at h
      simpa [aerase, hk] using Nat.succ_lt_succ (ih h)

theorem minKeys_mem {α : Type} {l : List (Nat × α)} {m : Nat}
    (h : minKeys l = some m) : m ∈ akeys l := by
  induction l generalizing m with
  | nil => simp [minKeys] at h
  | cons p rest ih =>
    obtain ⟨k, a⟩ := p
    simp only [minKeys] at h
    cases hr : minKeys rest with
    | none => rw [hr] at h; simp at h; simp [akeys, h]
    | some m' =>
      rw [hr] at h
      simp only [Option.some_inj] at h
      rcases Nat.le_total k m' with hle | hle
      · have hm : m = k := by rw [← h, min_eq_left hle]
        simp [akeys, hm]
      · have hm : m = m' := by rw [← h, min_eq_right hle]
        subst hm
        simpa [akeys] using Or.inr (by simpa [akeys] using ih hr)

theorem minKeys_le {α : Type} {l : List (Nat × α)} {m : Nat}
    (h : minKeys l = some m) : ∀ k ∈ akeys l, m ≤ k := by
  induction l generalizing m with
  | nil => simp [akeys]
  | cons p rest ih =>
    obtain ⟨k0, a0⟩ := p
    intro k hk
    simp only [minKeys] at h
    simp only [akeys, List.map_cons, List.mem_cons] at hk
    cases hr : minKeys rest with
    | none =>
      rw [hr] at h
      simp only [Option.some_inj] at h
      subst h
      rcases hk with hk | hk
      · omega
      · -- minKeys rest = none means rest = []
        cases rest with
        | nil => simp [akeys] at hk
        | cons q t =>
          obtain ⟨q1, q2⟩ := q
          simp only [minKeys] at hr
          cases hq : minKeys t <;> rw [hq] at hr <;> simp at hr
    | some m' =>
      rw [hr] at h
      simp only [Option.some_inj] at h
      rcases hk with hk | hk
      · subst hk
        rw [← h]
        exact min_le_left _ _
      · have h1 := ih hr k (by simpa [akeys] using hk)
        have h2 : m ≤ m' := by rw [← h]; exact min_le_right _ _
        omega

theorem minKeys_eq_none_iff {α : Type} (l : List (Nat × α)) :
    minKeys l = none ↔ l = [] := by
  cases l with
  | nil => simp [minKeys]
  | cons p rest =>
    obtain ⟨k, a⟩ := p
    simp only [minKeys]
    cases hr : minKeys rest <;> simp

theorem mem_akeys_iff_isSome {α : Type} (l : List (Nat × α)) (k : Nat) :
    k ∈ akeys l ↔ (alook l k).isSome := by
  constructor
  · exact alook_isSome_of_mem_akeys
  · intro h
    obtain ⟨a, ha⟩ := Option.isSome_iff_exists.mp h
    exact akeys_mem_of_alook ha

theorem mem_akeys_aset {α : Type} {l : List (Nat × α)} {k0 : Nat} {a : α} {k : Nat}
    (h : k ∈ akeys (aset l k0 a)) : k ∈ akeys l ∨ k = k0 := by
  by_cases hk : k = k0
  · exact Or.inr hk
  · refine Or.inl ?_
    rw [mem_akeys_iff_isSome] at h ⊢
    rwa [alook_aset_ne _ _ _ _ hk] at h

theorem mem_akeys_aset_of_mem {α : Type} {l : List (Nat × α)} {k0 : Nat} {a : α} {k : Nat}
    (h : k ∈ akeys l) : k ∈ akeys (aset l k0 a) := by
  by_cases hk : k = k0
  · subst hk
    rw [mem_akeys_iff_isSome, alook_aset_self]
    rfl
  · rw [mem_akeys_iff_isSome] at h ⊢
    rwa [alook_aset_ne _ _ _ _ hk]

theorem mem_akeys_aerase_ne {α : Type} {l : List (Nat × α)} {k0 k : Nat}
    (hk : k ≠ k0) (h : k ∈ akeys (aerase l k0)) : k ∈ akeys l := by
  rw [mem_akeys_iff_isSome] at h ⊢
  rwa [alook_aerase_ne _ _ _ hk] at h

theorem mem_akeys_aerase {α : Type} {l : List (Nat × α)} {k0 k : Nat}
    (h : k ∈ akeys (aerase l k0)) : k ∈ akeys l := by
  induction l with
  | nil => exact h
  | cons p rest ih =>
    obtain ⟨k1, a1⟩ := p
    by_cases hk : k0 = k1
    · subst hk
      simp only [aerase, if_pos rfl] at h
      simp only [akeys, List.map_cons, List.mem_cons]
      exact Or.inr (by simpa [akeys] using h)
    · simp only [aerase, if_neg hk, akeys, List.map_cons, List.mem_cons] at h
      rcases h with h | h
      · simp [akeys, h]
      · simp only [akeys, List.map_cons, List.mem_cons]
        exact Or.inr (by simpa [akeys] using ih (by simpa [akeys] using h))

theorem nodupKeys_aset {α : Type} {l : List (Nat × α)} {k : Nat} {a : α}
    (h : NodupKeys l) : NodupKeys (aset l k a) := by
  induction l with
  | nil => simp [aset, NodupKeys, akeys]
  | cons p rest ih =>
    obtain ⟨k1, a1⟩ := p
    simp only [NodupKeys, akeys, List.map_cons, List.nodup_cons] at h
    by_cases hk : k = k1
    · subst hk
      simpa [aset, NodupKeys, akeys] using h
    · simp only [aset, if_neg hk, NodupKeys, akeys, List.map_cons, List.nodup_cons]
      refine ⟨fun hmem => ?_, ih h.2⟩
      rcases mem_akeys_aset (by simpa [akeys] using hmem) with h' | h'
      · exact h.1 (by simpa [akeys] using h')
      · exact hk (h'.symm ▸ rfl)

theorem nodupKeys_aerase {α : Type} {l : List (Nat × α)} {k : Nat}
    (h : NodupKeys l) : NodupKeys (aerase l k) := by
  induction l with
  | nil => simp [aerase, NodupKeys, akeys]
  | cons p rest ih =>
    obtain ⟨k1, a1⟩ := p
    simp only [NodupKeys, akeys, List.map_cons, List.nodup_cons] at h
    by_cases hk : k = k1
    · subst hk; simpa [aerase, NodupKeys] using h.2
    · simp only [aerase, if_neg hk, NodupKeys, akeys, List.map_cons, List.nodup_cons]
      exact ⟨fun hmem => h.1 (mem_akeys_aerase (by simpa [akeys] using hmem)), ih h.2⟩

theorem alook_aerase_self {α : Type} {l : List (Nat × α)} {k : Nat}
    (h : NodupKeys l) : alook (aerase l k) k = none := by
  induction l with
  | nil => simp [aerase]
  | cons p rest ih =>
    obtain ⟨k1, a1⟩ := p
    simp only [NodupKeys, akeys, List.map_cons, List.nodup_cons] at h
    by_cases hk : k = k1
    · subst hk
      simp only [aerase, if_pos rfl]
      exact alook_eq_none_of_not_mem h.1
    · simp [aerase, hk, ih h.2]

theorem length_aset_of_isSome {α : Type} {l : List (Nat × α)} {k : Nat} {a : α}
    (h : (alook l k).isSome) : (aset l k a).length = l.length := by
  induction l with
  | nil => simp [alook] at h
  | cons p rest ih =>
    obtain ⟨k1, a1⟩ := p
    by_cases hk : k = k1
    · simp [aset, hk]
    · simp only [alook_cons, if_neg hk] at h
      simp [aset, hk, ih h]

theorem length_aset_of_none {α : Type} {l : List (Nat × α)} {k : Nat} {a : α}
    (h : alook l k = none) : (aset l k a).length = l.length + 1 := by
  induction l with
  | nil => simp [aset]
  | cons p rest ih =>
    obtain ⟨k1, a1⟩ := p
    by_cases hk : k = k1
    · simp [alook_cons, hk] at h
    · simp only [alook_cons, if_neg hk] at h
      simp [aset, hk, ih h]

theorem length_aerase_of_isSome {α : Type} {l : List (Nat × α)} {k : Nat}
    (h : (alook l k).isSome) : l.length = (aerase l k).length + 1 := by
  induction l with
  | nil => simp [alook] at h
  | cons p rest ih =>
    obtain ⟨k1, a1⟩ := p
    by_cases hk : k = k1
    · simp [aerase, hk]
    · simp only [alook_cons, if_neg hk] at h
      simp [aerase, hk, ih h]

theorem mem_of_alook {α : Type} {l : List (Nat × α)} {k : Nat} {a : α}
    (h : alook l k = some a) : (k, a) ∈ l := by
  induction l with
  | nil => simp [alook] at h
  | cons p rest ih =>
    obtain ⟨k1, a1⟩ := p
    by_cases hk : k = k1
    · subst hk
      rw [alook_cons, if_pos rfl, Option.some_inj] at h
      subst h
      exact List.mem_cons_self _ _
    · rw [alook_cons, if_neg hk] at h
      exact List.mem_cons_of_mem _ (ih h)

theorem alook_of_mem {α : Type} {l : List (Nat × α)} {k : Nat} {a : α}
    (hnd : NodupKeys l) (h : (k, a) ∈ l) : alook l k = some a := by
  induction l with
  | nil => simp at h
  | cons p rest ih =>
    obtain ⟨k1, a1⟩ := p
    simp only [NodupKeys, akeys, List.map_cons, List.nodup_cons] at hnd
    rcases List.mem_cons.mp h with heq | hmem
    · injection heq with h1 h2
      subst h1; subst h2
      simp [alook]
    · have hk : k ≠ k1 := by
        intro he
        subst he
        exact hnd.1 (List.mem_map_of_mem Prod.fst hmem)
      simp [alook, hk, ih hnd.2 hmem]

/-! ## `ListaAbierta`: Dial's-bucket open list (`abierta.py`) -/

/-- State of the open list: buckets `{f ↦ deque of (nodo, g)}`, the live-entry
dict `{nodo ↦ (f, g)}`, the running minimum `min_f` (`none` = `float('inf')`)
and the count of live entries. -/
structure ListaAbierta where
  buckets : List (Nat × List (Nat × Nat))
  entrada : List (Nat × (Nat × Nat))
  min_f : Option Nat
  num_elementos : Nat
  deriving Repr, DecidableEq

/-- `ListaAbierta.__init__`. -/
def vacia : ListaAbierta := ⟨[], [], none, 0⟩

/-- `ListaAbierta.insertar(nodo, g, h)`.  `f = int(g + h)` is `g + h` here
because `g` is an integer and `h` stands for the floored heuristic.  On an
improving re-insert the superseded pair is left in its bucket (the source's
lazy deletion), only `entrada` and `num_elementos` are adjusted. -/
def insertar (st : ListaAbierta) (nodo g h : Nat) : ListaAbierta :=
  let f := g + h
  let core : Nat → ListaAbierta := fun num0 =>
    let bucket := (alook st.buckets f).getD []
    let buckets' := aset st.buckets f (bucket ++ [(nodo, g)])
    let entrada' := aset st.entrada nodo (f, g)
    let min_f' :=
      match st.min_f with
      | none => some f
      | some m => if f < m then some f else some m
    ⟨buckets', entrada', min_f', num0 + 1⟩
  match alook st.entrada nodo with
  | some (_, g_anterior) =>
      if g_anterior ≤ g then st else core (st.num_elementos - 1)
  | none => core st.num_elementos

/-- The inner `while bucket: nodo, g = bucket.popleft(); ...` loop: pop
entries off the front until one matches the live record `entrada`; return
the found pair (if any) together with the remaining deque. -/
def drainBucket (entrada : List (Nat × (Nat × Nat))) (minf : Nat) :
    List (Nat × Nat) → Option (Nat × Nat) × List (Nat × Nat)
  | [] => (none, [])
  | (nodo, g) :: rest =>
      match alook entrada nodo with
      | some (f_guardado, g_guardado) =>
          if f_guardado = minf ∧ g = g_guardado then (some (nodo, g), rest)
          else drainBucket entrada minf rest
      | none => drainBucket entrada minf rest

/-- The outer `while self.min_f in self.buckets or self.min_f < float('inf')`
loop of `extraer_minimo`, entered with a finite `min_f`.  One pass:
re-aim `min_f` at an existing bucket (or report empty), drain that bucket;
on success remove the live record and return, otherwise delete the bucket
and continue with the smallest remaining key. -/
def extraerLoop : Nat → List (Nat × List (Nat × Nat)) →
    List (Nat × (Nat × Nat)) → Nat → Nat → Option (Nat × Nat) × ListaAbierta
  | 0, buckets, entrada, minf, num =>
      -- never reached: every pass deletes one existing bucket, so
      -- `buckets.length + 1` units of fuel outlast the loop (proved below)
      (none, ⟨buckets, entrada, some minf, num⟩)
  | fuel + 1, buckets, entrada, minf, num =>
      match alook buckets minf with
      | none =>
          match minKeys buckets with
          | none =>
              -- `if not self.buckets: return None` (state untouched)
              (none, ⟨buckets, entrada, some minf, num⟩)
          | some m =>
              match alook buckets m with
              | none =>
                  -- unreachable: the minimum key is always present
                  (none, ⟨buckets, entrada, some m, num⟩)
              | some bucket =>
                  match drainBucket entrada m bucket with
                  | (some (nodo, g), rest) =>
                      (some (nodo, g),
                       ⟨aset buckets m rest, aerase entrada nodo, some m, num - 1⟩)
                  | (none, _) =>
                      match minKeys (aerase buckets m) with
                      | none => (none, ⟨aerase buckets m, entrada, none, num⟩)
                      | some m2 => extraerLoop fuel (aerase buckets m) entrada m2 num
      | some bucket =>
          match drainBucket entrada minf bucket with
          | (some (nodo, g), rest) =>
              (some (nodo, g),
               ⟨aset buckets minf rest, aerase entrada nodo, some minf, num - 1⟩)
          | (none, _) =>
              match minKeys (aerase buckets minf) with
              | none => (none, ⟨aerase buckets minf, entrada, none, num⟩)
              | some m2 => extraerLoop fuel (aerase buckets minf) entrada m2 num

/-- `ListaAbierta.extraer_minimo()`, returning the extracted pair (or `None`)
together with the post-state. -/
def extraer_minimo (st : ListaAbierta) : Option (Nat × Nat) × ListaAbierta :=
  if st.num_elementos = 0 then (none, st)
  else
    match st.min_f with
    | none => (none, st)  -- loop condition false at `float('inf')`
    | some m => extraerLoop (st.buckets.length + 1) st.buckets st.entrada m st.num_elementos

/-- `ListaAbierta.esta_vacia()`. -/
def esta_vacia (st : ListaAbierta) : Bool := st.num_elementos = 0

/-- `ListaAbierta.contiene(nodo)`. -/
def contiene (st : ListaAbierta) (nodo : Nat) : Bool := (alook st.entrada nodo).isSome

/-- `ListaAbierta.obtener_g(nodo)`. -/
def obtener_g (st : ListaAbierta) (nodo : Nat) : Option Nat :=
  (alook st.entrada nodo).map Prod.snd

/-! ## Well-formedness of `ListaAbierta` states

These are the representation invariants the class maintains: the live dict
has no duplicate node, `num_elementos` counts the live entries, every live
entry is physically present in the bucket its recorded `f` names, and
`min_f` points at an existing bucket key that bounds all keys below. -/

/-- Every live entry is physically stored in the bucket its `f` names. -/
abbrev BucketsOK (buckets : List (Nat × List (Nat × Nat)))
    (entrada : List (Nat × (Nat × Nat))) : Prop :=
  ∀ n f g, alook entrada n = some (f, g) →
    ∃ b, alook buckets f = some b ∧ (n, g) ∈ b

structure WFAbierta (st : ListaAbierta) : Prop where
  entND : NodupKeys st.entrada
  bucND : NodupKeys st.buckets
  numEq : st.num_elementos = st.entrada.length
  phys : BucketsOK st.buckets st.entrada
  minNone : st.min_f = none → st.buckets = []
  minSome : ∀ m, st.min_f = some m →
      (alook st.buckets m).isSome ∧ ∀ k ∈ akeys st.buckets, m ≤ k

theorem wf_vacia : WFAbierta vacia := by
  refine ⟨?_, ?_, ?_, ?_, ?_, ?_⟩
  · simp [vacia, NodupKeys, akeys]
  · simp [vacia, NodupKeys, akeys]
  · simp [vacia]
  · intro n f g hx; simp [vacia, alook] at hx
  · intro _; simp [vacia]
  · intro m hm; simp [vacia] at hm

/-- Re-inserting with a no-better `g` is a no-op (`if g_anterior <= g: return`). -/
theorem insertar_noop {st : ListaAbierta} {n f0 g0 : Nat} (g h : Nat)
    (hl : alook st.entrada n = some (f0, g0)) (hle : g0 ≤ g) :
    insertar st n g h = st := by
  simp [insertar, hl, hle]

/-- The live record after `insertar` when the insert goes through. -/
theorem insertar_entrada {st : ListaAbierta} {n g h : Nat}
    (hcase : ∀ f0 g0, alook st.entrada n = some (f0, g0) → g < g0) :
    (insertar st n g h).entrada = aset st.entrada n (g + h, g) := by
  unfold insertar
  cases hl : alook st.entrada n with
  | none => rfl
  | some p =>
    obtain ⟨f0, g0⟩ := p
    have := hcase f0 g0 hl
    have hng : ¬ g0 ≤ g := by omega
    simp [hng]

/-- `num_elementos` after a go-through `insertar`: one more than the count
of other live entries. -/
theorem insertar_num {st : ListaAbierta} {n g h : Nat} :
    (∀ f0 g0, alook st.entrada n = some (f0, g0) → g < g0) →
    ((alook st.entrada n = none →
        (insertar st n g h).num_elementos = st.num_elementos + 1) ∧
     (∀ f0 g0, alook st.entrada n = some (f0, g0) →
        (insertar st n g h).num_elementos = st.num_elementos - 1 + 1)) := by
  intro hcase
  unfold insertar
  cases hl : alook st.entrada n with
  | none => simp
  | some p =>
    obtain ⟨f0, g0⟩ := p
    have := hcase f0 g0 hl
    have hng : ¬ g0 ≤ g := by omega
    constructor
    · intro hnone; simp [hl] at hnone
    · intro f1 g1 hl1
      simp [hng]

/-- `insertar` preserves the representation invariant. -/
theorem wf_insertar {st : ListaAbierta} (n g h : Nat) (hwf : WFAbierta st) :
    WFAbierta (insertar st n g h) := by
  unfold insertar
  cases hl : alook st.entrada n with
  | some p =>
    obtain ⟨f0, g0⟩ := p
    by_cases hle : g0 ≤ g
    · simpa [hle] using hwf
    · simp only [hle, if_false]
      -- improving re-insert: entries updated, old pair left in its bucket
      constructor
      · exact nodupKeys_aset hwf.entND
      · exact nodupKeys_aset hwf.bucND
      · have h1 : st.num_elementos = st.entrada.length := hwf.numEq
        have h2 : (aset st.entrada n (g + h, g)).length = st.entrada.length :=
          length_aset_of_isSome (by simp [hl])
        have h3 : 1 ≤ st.entrada.length :=
          List.length_pos.mpr (List.ne_nil_of_mem (mem_of_alook hl))
        simp only [h2]
        omega
      · intro m fm gm hm
        by_cases hmn : m = n
        · subst hmn
          rw [alook_aset_self] at hm
          injection hm with hm1
          injection hm1 with hf hg
          subst hf; subst hg
          refine ⟨((alook st.buckets (g + h)).getD []) ++ [(m, g)], ?_, ?_⟩
          · exact alook_aset_self _ _ _
          · simp
        · rw [alook_aset_ne _ _ _ _ hmn] at hm
          obtain ⟨b, hb, hmem⟩ := hwf.phys m fm gm hm
          by_cases hf : fm = g + h
          · subst hf
            refine ⟨((alook st.buckets (g + h)).getD []) ++ [(n, g)], alook_aset_self _ _ _, ?_⟩
            rw [hb]
            simp [List.mem_append, hmem]
          · exact ⟨b, by rw [alook_aset_ne _ _ _ _ hf]; exact hb, hmem⟩
      · intro hm
        cases hmf : st.min_f with
        | none => simp [hmf] at hm
        | some m0 => simp [hmf] at hm; split at hm <;> simp_all
      · intro m hm
        cases hmf : st.min_f with
        | none =>
          simp only [hmf] at hm
          injection hm with hm
          subst hm
          constructor
          · rw [alook_aset_self]; rfl
          · intro k hk
            rcases mem_akeys_aset hk with hk' | hk'
            · have := hwf.minNone hmf
              rw [this] at hk'
              simp [akeys] at hk'
            · omega
        | some m1 =>
          obtain ⟨hm1some, hm1le⟩ := hwf.minSome m1 hmf
          simp only [hmf] at hm
          by_cases hlt : g + h < m1
          · simp only [if_pos hlt] at hm
            injection hm with hm
            subst hm
            constructor
            · rw [alook_aset_self]; rfl
            · intro k hk
              rcases mem_akeys_aset hk with hk' | hk'
              · have := hm1le k hk'
                omega
              · omega
          · simp only [if_neg hlt] at hm
            injection hm with hm
            subst hm
            constructor
            · by_cases hf : m1 = g + h
              · subst hf; rw [alook_aset_self]; rfl
              · rw [alook_aset_ne _ _ _ _ (fun he => hf he)]
                exact hm1some
            · intro k hk
              rcases mem_akeys_aset hk with hk' | hk'
              · exact hm1le k hk'
              · omega
  | none =>
    -- fresh insert: entirely parallel to the improving branch
    constructor
    · exact nodupKeys_aset hwf.entND
    · exact nodupKeys_aset hwf.bucND
    · have h2 : (aset st.entrada n (g + h, g)).length = st.entrada.length + 1 :=
        length_aset_of_none hl
      simp only [h2, hwf.numEq]
    · intro m fm gm hm
      by_cases hmn : m = n
      · subst hmn
        rw [alook_aset_self] at hm
        injection hm with hm1
        injection hm1 with hf hg
        subst hf; subst hg
        refine ⟨((alook st.buckets (g + h)).getD []) ++ [(m, g)], alook_aset_self _ _ _, by simp⟩
      · rw [alook_aset_ne _ _ _ _ hmn] at hm
        obtain ⟨b, hb, hmem⟩ := hwf.phys m fm gm hm
        by_cases hf : fm = g + h
        · subst hf
          refine ⟨((alook st.buckets (g + h)).getD []) ++ [(n, g)], alook_aset_self _ _ _, ?_⟩
          rw [hb]
          simp [List.mem_append, hmem]
        · exact ⟨b, by rw [alook_aset_ne _ _ _ _ hf]; exact hb, hmem⟩
    · intro hm
      cases hmf : st.min_f with
      | none => simp [hmf] at hm
      | some m0 => simp [hmf] at hm; split at hm <;> simp_all
    · intro m hm
      cases hmf : st.min_f with
      | none =>
        simp only [hmf] at hm
        injection hm with hm
        subst hm
        constructor
        · rw [alook_aset_self]; rfl
        · intro k hk
          rcases mem_akeys_aset hk with hk' | hk'
          · have := hwf.minNone hmf
            rw [this] at hk'
            simp [akeys] at hk'
          · omega
      | some m1 =>
        obtain ⟨hm1some, hm1le⟩ := hwf.minSome m1 hmf
        simp only [hmf] at hm
        by_cases hlt : g + h < m1
        · simp only [if_pos hlt] at hm
          injection hm with hm
          subst hm
          constructor
          · rw [alook_aset_self]; rfl
          · intro k hk
            rcases mem_akeys_aset hk with hk' | hk'
            · have := hm1le k hk'
              omega
            · omega
        · simp only [if_neg hlt] at hm
          injection hm with hm
          subst hm
          constructor
          · by_cases hf : m1 = g + h
            · subst hf; rw [alook_aset_self]; rfl
            · rw [alook_aset_ne _ _ _ _ (fun he => hf he)]
              exact hm1some
          · intro k hk
            rcases mem_akeys_aset hk with hk' | hk'
            · exact hm1le k hk'
            · omega

/-- A successful drain returns a pair matching the live record, and every
pair popped before it was stale. -/
theorem drainBucket_some {entrada : List (Nat × (Nat × Nat))} {minf : Nat}
    {bucket rest : List (Nat × Nat)} {nodo g : Nat}
    (h : drainBucket entrada minf bucket = (some (nodo, g), rest)) :
    alook entrada nodo = some (minf, g) ∧
    ∃ pre, bucket = pre ++ (nodo, g) :: rest ∧
      ∀ x gx, (x, gx) ∈ pre → alook entrada x ≠ some (minf, gx) := by
  induction bucket generalizing rest with
  | nil => simp [drainBucket] at h
  | cons p tail ih =>
    obtain ⟨x, gx⟩ := p
    simp only [drainBucket] at h
    cases hl : alook entrada x with
    | some q =>
      obtain ⟨fg, gg⟩ := q
      rw [hl] at h
      by_cases hv : fg = minf ∧ gx = gg
      · simp only [if_pos hv] at h
        injection h with hval hrest
        injection hval with hval
        injection hval with hn hg
        subst hn; subst hg; subst hrest
        refine ⟨by rw [hl, hv.1, hv.2], [], by simp, by simp⟩
      · simp only [if_neg hv] at h
        obtain ⟨hv1, pre, hpre, hstale⟩ := ih h
        refine ⟨hv1, (x, gx) :: pre, by simp [hpre], ?_⟩
        intro y gy hy
        rcases List.mem_cons.mp hy with hy | hy
        · injection hy with hy1 hy2
          subst hy1; subst hy2
          intro hcon
          rw [hl] at hcon
          injection hcon with hcon
          injection hcon with hf hg
          exact hv ⟨hf, hg.symm⟩
        · exact hstale y gy hy
    | none =>
      rw [hl] at h
      obtain ⟨hv1, pre, hpre, hstale⟩ := ih h
      refine ⟨hv1, (x, gx) :: pre, by simp [hpre], ?_⟩
      intro y gy hy
      rcases List.mem_cons.mp hy with hy | hy
      · injection hy with hy1 hy2
        subst hy1; subst hy2
        simp [hl]
      · exact hstale y gy hy

/-- A failed drain means every pair in the bucket was stale. -/
theorem drainBucket_none {entrada : List (Nat × (Nat × Nat))} {minf : Nat}
    {bucket l : List (Nat × Nat)}
    (h : drainBucket entrada minf bucket = (none, l)) :
    ∀ x gx, (x, gx) ∈ bucket → alook entrada x ≠ some (minf, gx) := by
  induction bucket generalizing l with
  | nil => simp
  | cons p tail ih =>
    obtain ⟨x, gx⟩ := p
    simp only [drainBucket] at h
    intro y gy hy
    cases hl : alook entrada x with
    | some q =>
      obtain ⟨fg, gg⟩ := q
      rw [hl] at h
      by_cases hv : fg = minf ∧ gx = gg
      · simp [if_pos hv] at h
      · simp only [if_neg hv] at h
        rcases List.mem_cons.mp hy with hy | hy
        · injection hy with hy1 hy2
          subst hy1; subst hy2
          intro hcon
          rw [hl] at hcon
          injection hcon with hcon
          injection hcon with hf hg
          exact hv ⟨hf, hg.symm⟩
        · exact ih h y gy hy
    | none =>
      rw [hl] at h
      rcases List.mem_cons.mp hy with hy | hy
      · injection hy with hy1 hy2
        subst hy1; subst hy2
        simp [hl]
      · exact ih h y gy hy

/-- Core behaviour of `extraer_minimo`'s search loop on a well-formed
state with at least one live entry: it returns a live pair whose key `f`
is minimal among all live entries, removes exactly that entry, and
restores the representation invariants.  `fuel` only needs to exceed the
number of buckets, each pass deleting one. -/
theorem extraerLoop_spec :
    ∀ (fuel : Nat) (buckets : List (Nat × List (Nat × Nat)))
      (entrada : List (Nat × (Nat × Nat))) (minf num : Nat),
    buckets.length < fuel →
    NodupKeys entrada → NodupKeys buckets → BucketsOK buckets entrada →
    (∀ k ∈ akeys buckets, minf ≤ k) → entrada ≠ [] →
    ∃ nodo f g st',
      extraerLoop fuel buckets entrada minf num = (some (nodo, g), st') ∧
      alook entrada nodo = some (f, g) ∧
      (∀ m' fm gm, alook entrada m' = some (fm, gm) → f ≤ fm) ∧
      st'.entrada = aerase entrada nodo ∧
      st'.num_elementos = num - 1 ∧
      st'.min_f = some f ∧
      NodupKeys st'.buckets ∧
      BucketsOK st'.buckets st'.entrada ∧
      (∀ k ∈ akeys st'.buckets, f ≤ k) ∧
      (alook st'.buckets f).isSome := by
  intro fuel
  induction fuel with
  | zero => intro buckets entrada minf num hfuel; omega
  | succ fuel ih =>
    intro buckets entrada minf num hfuel hndE hndB hOK hmin hne
    rw [extraerLoop]
    have hother : ∀ (m : Nat) (bucket : List (Nat × Nat)),
        alook buckets m = some bucket →
        (∀ k ∈ akeys buckets, m ≤ k) →
        ∀ (nodo g : Nat) (rest : List (Nat × Nat)),
        drainBucket entrada m bucket = (some (nodo, g), rest) →
        ∃ nodo' f g' st',
          ((some (nodo, g), ⟨aset buckets m rest, aerase entrada nodo, some m, num - 1⟩) :
              Option (Nat × Nat) × ListaAbierta) = (some (nodo', g'), st') ∧
          alook entrada nodo' = some (f, g') ∧
          (∀ m' fm gm, alook entrada m' = some (fm, gm) → f ≤ fm) ∧
          st'.entrada = aerase entrada nodo' ∧
          st'.num_elementos = num - 1 ∧
          st'.min_f = some f ∧
          NodupKeys st'.buckets ∧
          BucketsOK st'.buckets st'.entrada ∧
          (∀ k ∈ akeys st'.buckets, f ≤ k) ∧
          (alook st'.buckets f).isSome := by
      intro m bucket hbm hmle nodo g rest hdrain
      obtain ⟨hlive, pre, hpre, hstale⟩ := drainBucket_some hdrain
      refine ⟨nodo, m, g, _, rfl, hlive, ?_, rfl, rfl, rfl, nodupKeys_aset hndB, ?_, ?_, ?_⟩
      · intro m' fm gm hm'
        obtain ⟨b, hbf, _⟩ := hOK m' fm gm hm'
        exact hmle fm (akeys_mem_of_alook hbf)
      · intro x fx gx hx
        by_cases hxn : x = nodo
        · subst hxn
          rw [alook_aerase_self hndE] at hx
          cases hx
        · rw [alook_aerase_ne _ _ _ hxn] at hx
          obtain ⟨b, hbf, hmem⟩ := hOK x fx gx hx
          by_cases hfm : fx = m
          · subst hfm
            rw [hbm] at hbf
            injection hbf with hbf
            subst hbf
            refine ⟨rest, alook_aset_self _ _ _, ?_⟩
            rw [hpre] at hmem
            rcases List.mem_append.mp hmem with hmem | hmem
            · exact absurd hx (by
                intro hcon
                exact hstale x gx hmem hcon)
            · rcases List.mem_cons.mp hmem with hmem | hmem
              · injection hmem with h1 h2
                exact absurd h1 hxn
              · exact hmem
          · exact ⟨b, by rw [alook_aset_ne _ _ _ _ hfm]; exact hbf, hmem⟩
      · intro k hkk
        rcases mem_akeys_aset hkk with hkk | hkk
        · exact hmle k hkk
        · omega
      · rw [alook_aset_self]; rfl
    have hcont : ∀ (m : Nat) (bucket : List (Nat × Nat)),
        alook buckets m = some bucket →
        ∀ (snd : List (Nat × Nat)),
        drainBucket entrada m bucket = (none, snd) →
        ∃ nodo' f g' st',
          (match minKeys (aerase buckets m) with
           | none =>
              ((none, ⟨aerase buckets m, entrada, none, num⟩) :
                Option (Nat × Nat) × ListaAbierta)
           | some m2 => extraerLoop fuel (aerase buckets m) entrada m2 num) =
            (some (nodo', g'), st') ∧
          alook entrada nodo' = some (f, g') ∧
          (∀ m' fm gm, alook entrada m' = some (fm, gm) → f ≤ fm) ∧
          st'.entrada = aerase entrada nodo' ∧
          st'.num_elementos = num - 1 ∧
          st'.min_f = some f ∧
          NodupKeys st'.buckets ∧
          BucketsOK st'.buckets st'.entrada ∧
          (∀ k ∈ akeys st'.buckets, f ≤ k) ∧
          (alook st'.buckets f).isSome := by
      intro m bucket hbm snd hdrain
      have hstale := drainBucket_none hdrain
      have hOK' : BucketsOK (aerase buckets m) entrada := by
        intro x fx gx hx
        obtain ⟨b, hbf, hmem⟩ := hOK x fx gx hx
        by_cases hfm : fx = m
        · subst hfm
          rw [hbm] at hbf
          injection hbf with hbf
          subst hbf
          exact absurd hx (hstale x gx hmem)
        · exact ⟨b, by rw [alook_aerase_ne _ _ _ hfm]; exact hbf, hmem⟩
      cases hk2 : minKeys (aerase buckets m) with
      | none =>
        exfalso
        have hempty : aerase buckets m = [] := (minKeys_eq_none_iff _).mp hk2
        cases entrada with
        | nil => exact hne rfl
        | cons p t =>
          obtain ⟨n, f, g⟩ := p
          obtain ⟨b, hbf, hmem⟩ := hOK' n f g (by simp [alook])
          rw [hempty] at hbf
          simp at hbf
      | some m2 =>
        have hlen : (aerase buckets m).length < fuel := by
          have : (aerase buckets m).length < buckets.length :=
            length_aerase_lt (by rw [hbm]; rfl)
          omega
        exact ih (aerase buckets m) entrada m2 num hlen hndE
          (nodupKeys_aerase hndB) hOK' (minKeys_le hk2) hne
    cases hb : alook buckets minf with
    | some bucket =>
      dsimp only
      rcases hdr : drainBucket entrada minf bucket with ⟨res, rest⟩
      cases res with
      | some p =>
        obtain ⟨nodo, g⟩ := p
        dsimp only
        exact hother minf bucket hb hmin nodo g rest hdr
      | none =>
        dsimp only
        exact hcont minf bucket hb rest hdr
    | none =>
      dsimp only
      cases hk : minKeys buckets with
      | none =>
        exfalso
        have hempty : buckets = [] := (minKeys_eq_none_iff _).mp hk
        cases entrada with
        | nil => exact hne rfl
        | cons p t =>
          obtain ⟨n, f, g⟩ := p
          obtain ⟨b, hbf, _⟩ := hOK n f g (by simp [alook])
          rw [hempty] at hbf
          simp at hbf
      | some m =>
        dsimp only
        cases hb2 : alook buckets m with
        | none =>
          exfalso
          have := alook_isSome_of_mem_akeys (minKeys_mem hk)
          rw [hb2] at this
          simp at this
        | some bucket =>
          dsimp only
          rcases hdr : drainBucket entrada m bucket with ⟨res, rest⟩
          cases res with
          | some p =>
            obtain ⟨nodo, g⟩ := p
            dsimp only
            exact hother m bucket hb2 (minKeys_le hk) nodo g rest hdr
          | none =>
            dsimp only
            exact hcont m bucket hb2 rest hdr

/-- A well-formed state with at least one live entry has a finite `min_f`. -/
theorem minf_isSome_of_ne {st : ListaAbierta} (hwf : WFAbierta st)
    (hne : st.num_elementos ≠ 0) : ∃ m, st.min_f = some m := by
  cases hm : st.min_f with
  | some m => exact ⟨m, rfl⟩
  | none =>
    exfalso
    have hempty := hwf.minNone hm
    have hlen : st.entrada ≠ [] := by
      intro hcon
      rw [hwf.numEq, hcon] at hne
      simp at hne
    cases he : st.entrada with
    | nil => exact hlen he
    | cons p t =>
      obtain ⟨n, f, g⟩ := p
      obtain ⟨b, hbf, _⟩ := hwf.phys n f g (by rw [he]; simp [alook])
      rw [hempty] at hbf
      simp at hbf

/-- `extraer_minimo` on a well-formed non-empty state: returns a live pair
with minimal `f`, removes exactly that live entry, decrements the count,
and preserves well-formedness. -/
theorem extraer_spec {st : ListaAbierta} (hwf : WFAbierta st)
    (hne : st.num_elementos ≠ 0) :
    ∃ nodo f g st',
      extraer_minimo st = (some (nodo, g), st') ∧
      alook st.entrada nodo = some (f, g) ∧
      (∀ m' fm gm, alook st.entrada m' = some (fm, gm) → f ≤ fm) ∧
      st'.entrada = aerase st.entrada nodo ∧
      st'.num_elementos = st.num_elementos - 1 ∧
      WFAbierta st' := by
  obtain ⟨m, hm⟩ := minf_isSome_of_ne hwf hne
  obtain ⟨_, hmle⟩ := hwf.minSome m hm
  have hentne : st.entrada ≠ [] := by
    intro hcon
    rw [hwf.numEq, hcon] at hne
    simp at hne
  obtain ⟨nodo, f, g, st', heq, hlive, hminim, hent, hnum, hminf, hndB, hOK, hkle, hfsome⟩ :=
    extraerLoop_spec (st.buckets.length + 1) st.buckets st.entrada m st.num_elementos
      (Nat.lt_succ_self _) hwf.entND hwf.bucND hwf.phys hmle hentne
  refine ⟨nodo, f, g, st', ?_, hlive, hminim, hent, hnum, ?_⟩
  · rw [extraer_minimo, if_neg hne, hm]
    exact heq
  · refine ⟨?_, hndB, ?_, hOK, ?_, ?_⟩
    · rw [hent]; exact nodupKeys_aerase hwf.entND
    · rw [hent, hnum, hwf.numEq]
      have : (alook st.entrada nodo).isSome := by rw [hlive]; rfl
      have := length_aerase_of_isSome this
      omega
    · intro hcon; rw [hcon] at hminf; cases hminf
    · intro m2 hm2
      rw [hminf] at hm2
      injection hm2 with hm2
      subst hm2
      exact ⟨hfsome, hkle⟩

/-- On an empty state `extraer_minimo` reports empty and leaves the state
untouched. -/
theorem extraer_none_of_empty {st : ListaAbierta} (h : st.num_elementos = 0) :
    extraer_minimo st = (none, st) := by
  rw [extraer_minimo, if_pos h]

/-- `extraer_minimo` preserves well-formedness. -/
theorem wf_extraer {st : ListaAbierta} (hwf : WFAbierta st) :
    WFAbierta (extraer_minimo st).2 := by
  by_cases hne : st.num_elementos = 0
  · rw [extraer_none_of_empty hne]; exact hwf
  · obtain ⟨nodo, f, g, st', heq, _, _, _, _, hwf'⟩ := extraer_spec hwf hne
    rw [heq]
    exact hwf'

/-- The states reachable by any sequence of `insertar` / `extraer_minimo`
operations from the empty open list. -/
inductive AbiertaReach : ListaAbierta → Prop where
  | empty : AbiertaReach vacia
  | ins (st : ListaAbierta) (n g h : Nat) :
      AbiertaReach st → AbiertaReach (insertar st n g h)
  | ext (st : ListaAbierta) : AbiertaReach st → AbiertaReach (extraer_minimo st).2

theorem wf_reach {st : ListaAbierta} (h : AbiertaReach st) : WFAbierta st := by
  induction h with
  | empty => exact wf_vacia
  | ins st n g hh _ ih => exact wf_insertar n g hh ih
  | ext st _ ih => exact wf_extraer ih

/-! ## `Grafo` (`grafo.py`), engine view

The engine-facing graph follows the documented data model: vertex ids and
edge weights are non-negative integers, coordinates are pairs of rationals
(decimal degrees).  Ingestion of raw text, where Python's unbounded signed
`int` matters, is modelled separately below with `Int` fields. -/

structure Grafo where
  num_vertices : Nat
  num_arcos : Nat
  adyacencia : List (Nat × List (Nat × Nat))
  coordenadas : List (Nat × (Rat × Rat))

/-- `Grafo.obtener_sucesores(vertice)`: `self.adyacencia.get(vertice, [])`. -/
def obtener_sucesores (gr : Grafo) (vertice : Nat) : List (Nat × Nat) :=
  (alook gr.adyacencia vertice).getD []

/-- `Grafo.existe_vertice(vertice)`: `vertice in self.coordenadas`. -/
def existe_vertice (gr : Grafo) (vertice : Nat) : Bool :=
  (alook gr.coordenadas vertice).isSome

/-! ## Graph ingestion (`cargar_grafo` / `cargar_coordenadas`)

Modelled over `Int`, since Python's `int()` accepts signed numerals; a
failed `int()` conversion (`ValueError`) is the `Except.error` case. -/

/-- A graph as actually built by the ingestion layer from raw text. -/
structure GrafoZ where
  num_vertices : Nat
  num_arcos : Nat
  adyacencia : List (Int × List (Int × Int))
  coordenadas : List (Int × (Rat × Rat))

/-- Empty graph, `Grafo.__init__`. -/
def grafoZvacio : GrafoZ := ⟨0, 0, [], []⟩

/-- Association-list lookup with `Int` keys (ingestion side). -/
def zlook {α : Type} : List (Int × α) → Int → Option α
  | [], _ => none
  | (k, a) :: rest, k' => if k' = k then some a else zlook rest k'

/-- Association-list update with `Int` keys (ingestion side). -/
def zset {α : Type} : List (Int × α) → Int → α → List (Int × α)
  | [], k, a => [(k, a)]
  | (k0, a0) :: rest, k, a =>
      if k = k0 then (k, a) :: rest else (k0, a0) :: zset rest k a

/-- Whitespace splitter over a character list (helper for `pySplit`). -/
def splitWsAux : List Char → List Char → List (List Char)
  | [], acc => if acc = [] then [] else [acc.reverse]
  | c :: cs, acc =>
      if c.isWhitespace then
        if acc = [] then splitWsAux cs [] else acc.reverse :: splitWsAux cs []
      else splitWsAux cs (c :: acc)

/-- Python `str.split()`: split on whitespace runs, dropping empty tokens. -/
def pySplit (s : String) : List String :=
  (splitWsAux s.data []).map (fun cs => String.mk cs)

/-- One digit of a decimal numeral. -/
def digitVal? (c : Char) : Option Nat :=
  if c.isDigit then some (c.toNat - '0'.toNat) else none

/-- Parse a run of decimal digits (non-empty). -/
def digitsVal? : List Char → Option Nat
  | [] => none
  | cs => cs.foldlM (fun acc c => (digitVal? c).map (fun d => acc * 10 + d)) 0

/-- Python `int(token)` on a whitespace-free token: an optional sign
followed by at least one ASCII digit; anything else raises `ValueError`
(modelled as `none`).  Exotic numerals (underscores, unicode digits) are
outside the model. -/
def pyInt? (s : String) : Option Int :=
  match s.data with
  | '-' :: rest => (digitsVal? rest).map (fun n => -(n : Int))
  | '+' :: rest => (digitsVal? rest).map (fun n => (n : Int))
  | cs => (digitsVal? cs).map (fun n => (n : Int))

/-- One line of `Grafo.cargar_grafo`: if the line has at least 4 tokens and
starts with the literal `a`, parse tokens 2-4 as integers (a parse failure
raises) and append the edge; otherwise leave the graph unchanged. -/
def cargarGrafoLinea (gr : GrafoZ) (linea : String) : Except Unit GrafoZ :=
  let partes := pySplit linea
  if 4 ≤ partes.length ∧ partes.head? = some "a" then
    match pyInt? (partes.getD 1 ""), pyInt? (partes.getD 2 ""), pyInt? (partes.getD 3 "") with
    | some origen, some destino, some coste =>
        let lista := (zlook gr.adyacencia origen).getD []
        .ok { gr with
              adyacencia := zset gr.adyacencia origen (lista ++ [(destino, coste)]),
              num_arcos := gr.num_arcos + 1 }
    | _, _, _ => .error ()
  else .ok gr

/-- `Grafo.cargar_grafo`: fold the edge-record lines, propagating a failed
`int()` conversion. -/
def cargar_grafo (lineas : List String) (gr : GrafoZ) : Except Unit GrafoZ :=
  match lineas with
  | [] => .ok gr
  | linea :: rest =>
      match cargarGrafoLinea gr linea with
      | .ok gr' => cargar_grafo rest gr'
      | .error e => .error e

/-- One line of `Grafo.cargar_coordenadas`: at least 4 tokens starting with
the literal `v`; tokens 2-3 are longitude and latitude scaled by 10^6. -/
def cargarCoordsLinea (gr : GrafoZ) (linea : String) : Except Unit GrafoZ :=
  let partes := pySplit linea
  if 4 ≤ partes.length ∧ partes.head? = some "v" then
    match pyInt? (partes.getD 1 ""), pyInt? (partes.getD 2 ""), pyInt? (partes.getD 3 "") with
    | some vertice, some longitud, some latitud =>
        .ok { gr with
              coordenadas :=
                zset gr.coordenadas vertice
                  ((latitud : Rat) / 1000000, (longitud : Rat) / 1000000),
              num_vertices := gr.num_vertices + 1 }
    | _, _, _ => .error ()
  else .ok gr

/-- `Grafo.cargar_coordenadas`. -/
def cargar_coordenadas (lineas : List String) (gr : GrafoZ) : Except Unit GrafoZ :=
  match lineas with
  | [] => .ok gr
  | linea :: rest =>
      match cargarCoordsLinea gr linea with
      | .ok gr' => cargar_coordenadas rest gr'
      | .error e => .error e

/-! ## The search engine (`algoritmo.py`)

`AlgoritmoAStarConPadres.resolver` and `AlgoritmoDijkstra.resolver` are the
same loop; the only difference is the heuristic handed to `insertar`
(`heuristica(n)` vs the literal `0`).  The loop below is parameterized by
`hopt : Nat → Option Nat`, the per-vertex floored heuristic; `none` models
a `KeyError` escaping from `distancia_haversine` (a vertex without
coordinates), which aborts the whole call. -/

/-- Terminal outcome of one `resolver` call. -/
inductive Resultado where
  | solved (camino : List (Nat × Nat)) (coste : Nat)
  | exhausted
  | vertexNotFound
  deriving Repr, DecidableEq

/-- The per-run search record: open list, `g_minimo`, `padres`
(`nodo ↦ (padre, coste_arco)`), the closed set (as the list of vertices in
closing order) and the expansion counter. -/
structure Estado where
  abierta : ListaAbierta
  g_minimo : List (Nat × Nat)
  padres : List (Nat × (Option Nat × Nat))
  cerrada : List Nat
  expansiones : Nat
  deriving Repr

/-- `_reconstruir_camino`, with fuel standing in for the untracked
termination of the parent walk (`padres` KeyError would be `none`). -/
def reconstruirF (padres : List (Nat × (Option Nat × Nat))) :
    Nat → Option Nat → List (Nat × Nat) → Option (List (Nat × Nat))
  | _, none, camino => some camino.reverse
  | 0, some _, _ => none
  | fuel + 1, some nodo, camino =>
      match alook padres nodo with
      | none => none
      | some (padre, coste_arco) =>
          reconstruirF padres fuel padre (camino ++ [(nodo, coste_arco)])

/-- `_reconstruir_camino(padres, nodo_objetivo)`. -/
def reconstruir (padres : List (Nat × (Option Nat × Nat))) (nodo : Nat) :
    List (Nat × Nat) :=
  (reconstruirF padres (padres.length + 1) (some nodo) []).getD []

/-- The `for sucesor, coste_arco in obtener_sucesores(...)` body: skip closed
successors, and on a strict `g` improvement update `g_minimo` and `padres`,
evaluate the heuristic (failure aborts) and insert into the open list. -/
def expandir (hopt : Nat → Option Nat) (cerrada : List Nat)
    (nodo_actual g_actual : Nat) :
    List (Nat × Nat) → List (Nat × Nat) → List (Nat × (Option Nat × Nat)) →
    ListaAbierta → Option (List (Nat × Nat) × List (Nat × (Option Nat × Nat)) × ListaAbierta)
  | [], g_minimo, padres, abierta => some (g_minimo, padres, abierta)
  | (sucesor, coste_arco) :: rest, g_minimo, padres, abierta =>
      if sucesor ∈ cerrada then
        expandir hopt cerrada nodo_actual g_actual rest g_minimo padres abierta
      else
        let g_sucesor := g_actual + coste_arco
        let mejora : Bool :=
          match alook g_minimo sucesor with
          | none => true   -- `g_minimo.get(sucesor, float('inf'))`
          | some previo => g_sucesor < previo
        if mejora then
          let g_minimo' := aset g_minimo sucesor g_sucesor
          let padres' := aset padres sucesor (some nodo_actual, coste_arco)
          match hopt sucesor with
          | none => none
          | some h_sucesor =>
              expandir hopt cerrada nodo_actual g_actual rest g_minimo' padres'
                (insertar abierta sucesor g_sucesor h_sucesor)
        else
          expandir hopt cerrada nodo_actual g_actual rest g_minimo padres abierta

/-- One iteration of the `while not abierta.esta_vacia()` loop: either a
terminal result (`inl`) or the state at the next loop head (`inr`). -/
def paso (gr : Grafo) (hopt : Nat → Option Nat) (destino : Nat) (σ : Estado) :
    (Resultado × Nat) ⊕ Estado :=
  if esta_vacia σ.abierta then .inl (.exhausted, σ.expansiones)
  else
    match extraer_minimo σ.abierta with
    | (none, ab') =>
        -- `if resultado is None: break`
        .inl (.exhausted, { σ with abierta := ab' }.expansiones)
    | (some (nodo_actual, g_actual), ab') =>
        if nodo_actual ∈ σ.cerrada then .inr { σ with abierta := ab' }
        else if (match alook σ.g_minimo nodo_actual with
                 | some conocido => decide (g_actual > conocido)
                 | none => false) then .inr { σ with abierta := ab' }
        else
          let expansiones' := σ.expansiones + 1
          let cerrada' := σ.cerrada ++ [nodo_actual]
          if nodo_actual = destino then
            .inl (.solved (reconstruir σ.padres nodo_actual) g_actual, expansiones')
          else
            match expandir hopt cerrada' nodo_actual g_actual
                (obtener_sucesores gr nodo_actual) σ.g_minimo σ.padres ab' with
            | none => .inl (.vertexNotFound, expansiones')
            | some (g_minimo', padres', abierta') =>
                .inr ⟨abierta', g_minimo', padres', cerrada', expansiones'⟩

/-- The search loop with fuel; `none` means the fuel ran out (shown
impossible from the initial state, see the fuel-sufficiency theorems). -/
def resolverLoopF (gr : Grafo) (hopt : Nat → Option Nat) (destino : Nat) :
    Nat → Estado → Option (Resultado × Nat)
  | 0, _ => none
  | fuel + 1, σ =>
      match paso gr hopt destino σ with
      | .inl r => some r
      | .inr σ' => resolverLoopF gr hopt destino fuel σ'

/-- All vertices the run can ever touch: the origin plus every edge target. -/
def verts (gr : Grafo) (origen : Nat) : List Nat :=
  origen :: gr.adyacencia.flatMap (fun p => p.2.map Prod.fst)

/-- Fuel that provably outlasts the loop. -/
def fuel0 (gr : Grafo) (origen : Nat) : Nat :=
  ((verts gr origen).length + 2) * ((verts gr origen).length + 2) + 2

/-- `resolver`, shared by both strategies.  The A* class evaluates
`heuristica(origen)` before the loop (a missing-coordinates `KeyError`
surfaces here); Dijkstra passes the literal heuristic 0 so the same shape
covers both. -/
def resolver (gr : Grafo) (hopt : Nat → Option Nat) (origen destino : Nat) :
    Resultado × Nat :=
  match hopt origen with
  | none => (.vertexNotFound, 0)
  | some h_origen =>
      let abierta0 := insertar vacia origen 0 h_origen
      let σ0 : Estado := ⟨abierta0, [(origen, 0)], [(origen, (none, 0))], [], 0⟩
      (resolverLoopF gr hopt destino (fuel0 gr origen) σ0).getD (.exhausted, 0)

/-- `AlgoritmoAStarConPadres.heuristica` =
`grafo.distancia_haversine(nodo, destino)`: look up both coordinate
records (`KeyError` when either is missing) and apply the haversine value
function `hav`, which stands for the floored great-circle distance. -/
def heuristica (gr : Grafo) (hav : Rat × Rat → Rat × Rat → Nat)
    (destino nodo : Nat) : Option Nat :=
  match alook gr.coordenadas nodo, alook gr.coordenadas destino with
  | some c1, some c2 => some (hav c1 c2)
  | _, _ => none

/-- `AlgoritmoAStarConPadres(grafo, origen, destino).resolver()`. -/
def resolverAStar (gr : Grafo) (hav : Rat × Rat → Rat × Rat → Nat)
    (origen destino : Nat) : Resultado × Nat :=
  resolver gr (heuristica gr hav destino) origen destino

/-- A* with a total per-vertex heuristic (every touched vertex has
coordinates; `h` is the floored haversine to the fixed destination). -/
def resolverAStarTotal (gr : Grafo) (h : Nat → Nat) (origen destino : Nat) :
    Resultado × Nat :=
  resolver gr (fun v => some (h v)) origen destino

/-- `AlgoritmoDijkstra(grafo, origen, destino).resolver()`: the identical
loop with the literal heuristic 0 and no coordinate access at all. -/
def resolverDijkstra (gr : Grafo) (origen destino : Nat) : Resultado × Nat :=
  resolver gr (fun _ => some 0) origen destino

/-! ## Claims about the open list (C4, C5, C10) -/

/-- A go-through `insertar` (node absent, or present with a strictly worse
`g`), written out componentwise. -/
theorem insertar_go {st : ListaAbierta} {n g h : Nat}
    (hcase : ∀ f0 g0, alook st.entrada n = some (f0, g0) → g < g0) :
    insertar st n g h =
      ⟨aset st.buckets (g + h) (((alook st.buckets (g + h)).getD []) ++ [(n, g)]),
       aset st.entrada n (g + h, g),
       (match st.min_f with
        | none => some (g + h)
        | some m => if g + h < m then some (g + h) else some m),
       (match alook st.entrada n with
        | none => st.num_elementos
        | some _ => st.num_elementos - 1) + 1⟩ := by
  unfold insertar
  cases hl : alook st.entrada n with
  | none => rfl
  | some p =>
    obtain ⟨f0, g0⟩ := p
    have := hcase f0 g0 hl
    have hng : ¬ g0 ≤ g := by omega
    simp [hng]

/-- Claim C4: on every state reachable by `insertar`/`extraer_minimo`
sequences, `extraer_minimo` reports empty exactly when the live count is
zero; otherwise it returns a pair `(nodo, g)` that is live with exactly the
recorded `g`, whose key `f` is minimal among the keys of all live entries. -/
theorem claim_C4 (st : ListaAbierta) (hreach : AbiertaReach st) :
    ((extraer_minimo st).1 = none ↔ st.num_elementos = 0) ∧
    st.num_elementos = st.entrada.length ∧
    (∀ nodo g, (extraer_minimo st).1 = some (nodo, g) →
      ∃ f, alook st.entrada nodo = some (f, g) ∧
        ∀ m fm gm, alook st.entrada m = some (fm, gm) → f ≤ fm) := by
  have hwf := wf_reach hreach
  refine ⟨⟨?_, ?_⟩, hwf.numEq, ?_⟩
  · intro hnone
    by_contra hne
    obtain ⟨nodo, f, g, st', heq, _⟩ := extraer_spec hwf hne
    rw [heq] at hnone
    cases hnone
  · intro h0
    rw [extraer_none_of_empty h0]
  · intro nodo g hsome
    by_cases hne : st.num_elementos = 0
    · rw [extraer_none_of_empty hne] at hsome
      cases hsome
    · obtain ⟨nodo', f, g', st', heq, hlive, hmin, _⟩ := extraer_spec hwf hne
      rw [heq] at hsome
      injection hsome with hsome
      injection hsome with hs1 hs2
      subst hs1; subst hs2
      exact ⟨f, hlive, hmin⟩

/-- Witness for C4 at a concrete reachable state. -/
theorem claim_C4_witness :
    ((extraer_minimo (insertar vacia 1 2 3)).1 = none ↔
        (insertar vacia 1 2 3).num_elementos = 0) ∧
    (insertar vacia 1 2 3).num_elementos = (insertar vacia 1 2 3).entrada.length ∧
    (∀ nodo g, (extraer_minimo (insertar vacia 1 2 3)).1 = some (nodo, g) →
      ∃ f, alook (insertar vacia 1 2 3).entrada nodo = some (f, g) ∧
        ∀ m fm gm, alook (insertar vacia 1 2 3).entrada m = some (fm, gm) → f ≤ fm) :=
  claim_C4 _ (AbiertaReach.ins _ 1 2 3 AbiertaReach.empty)

/-- Counterexample to claim C5: after the improving insert
`insertar (insertar vacia 1 5 3) 1 3 5` the superseded pair `(1, 5)` is
still physically stored in bucket 8, next to the new pair `(1, 3)` — the
vertex occupies two bucket slots, so the decrease-key is lazy, not eager. -/
theorem claim_C5_cex :
    alook (insertar (insertar vacia 1 5 3) 1 3 5).buckets 8 = some [(1, 5), (1, 3)] ∧
    alook (insertar (insertar vacia 1 5 3) 1 3 5).entrada 1 = some (8, 3) ∧
    (insertar (insertar vacia 1 5 3) 1 3 5).num_elementos = 1 := by
  decide

/-- Claim C5 as amended: the insert-or-improve is a lazy decrease-key.  On
an improving insert the superseded pair stays physically in its old bucket
(only the live dict and the live count are updated), while the live record
— of which each vertex has at most one, `entrada` being keyed by vertex —
now carries the new `(f, g)`. -/
theorem claim_C5_amended (st : ListaAbierta) (n f1 g1 g2 h2 : Nat)
    (hwf : WFAbierta st) (hl : alook st.entrada n = some (f1, g1)) (hg : g2 < g1) :
    (∃ b, alook (insertar st n g2 h2).buckets f1 = some b ∧ (n, g1) ∈ b) ∧
    alook (insertar st n g2 h2).entrada n = some (g2 + h2, g2) ∧
    NodupKeys (insertar st n g2 h2).entrada ∧
    (insertar st n g2 h2).num_elementos = st.num_elementos := by
  have hcase : ∀ f0 g0, alook st.entrada n = some (f0, g0) → g2 < g0 := by
    intro f0 g0 h0
    rw [hl] at h0
    injection h0 with h0
    injection h0 with hf hgg
    omega
  obtain ⟨b, hb, hmem⟩ := hwf.phys n f1 g1 hl
  rw [insertar_go hcase]
  refine ⟨?_, ?_, ?_, ?_⟩
  · by_cases hff : f1 = g2 + h2
    · rw [hff]
      rw [hff] at hb
      refine ⟨((alook st.buckets (g2 + h2)).getD []) ++ [(n, g2)], alook_aset_self _ _ _, ?_⟩
      rw [hb]
      simp [hmem]
    · exact ⟨b, by rw [alook_aset_ne _ _ _ _ hff]; exact hb, hmem⟩
  · exact alook_aset_self _ _ _
  · exact nodupKeys_aset hwf.entND
  · rw [hl]
    show st.num_elementos - 1 + 1 = st.num_elementos
    have : st.num_elementos = st.entrada.length := hwf.numEq
    have h1 : 1 ≤ st.entrada.length :=
      List.length_pos.mpr (List.ne_nil_of_mem (mem_of_alook hl))
    omega

/-- Witness for the amended C5 at the concrete lazy-deletion state. -/
theorem claim_C5_amended_witness :
    (∃ b, alook (insertar (insertar vacia 1 5 3) 1 3 5).buckets 8 = some b ∧ (1, 5) ∈ b) ∧
    alook (insertar (insertar vacia 1 5 3) 1 3 5).entrada 1 = some (3 + 5, 3) ∧
    NodupKeys (insertar (insertar vacia 1 5 3) 1 3 5).entrada ∧
    (insertar (insertar vacia 1 5 3) 1 3 5).num_elementos = (insertar vacia 1 5 3).num_elementos :=
  claim_C5_amended (insertar vacia 1 5 3) 1 8 5 3 5
    (wf_insertar 1 5 3 wf_vacia) (by decide) (by decide)

/-- Claim C10: tie-breaking among equal-`f` entries is first-in-first-out.
If two fresh vertices are inserted with the same key `f`, smaller than every
key already in the structure, the next `extraer_minimo` returns the one
inserted first — the deque order, not an arbitrary choice. -/
theorem claim_C10 (st : ListaAbierta) (n1 n2 g1 h1 g2 h2 : Nat)
    (hn1 : alook st.entrada n1 = none) (hn2 : alook st.entrada n2 = none)
    (hnn : n1 ≠ n2) (hf : g1 + h1 = g2 + h2)
    (hbnone : alook st.buckets (g1 + h1) = none)
    (hlow : ∀ m, st.min_f = some m → g1 + h1 < m) :
    (extraer_minimo (insertar (insertar st n1 g1 h1) n2 g2 h2)).1 = some (n1, g1) := by
  have hstep1 : insertar st n1 g1 h1 =
      ⟨aset st.buckets (g1 + h1) [(n1, g1)],
       aset st.entrada n1 (g1 + h1, g1),
       some (g1 + h1),
       st.num_elementos + 1⟩ := by
    rw [insertar_go (by intro f0 g0 h0; rw [hn1] at h0; cases h0)]
    rw [hn1, hbnone]
    cases hmf : st.min_f with
    | none => rfl
    | some m =>
      have := hlow m hmf
      simp [this]
  have hn2' : alook (aset st.entrada n1 (g1 + h1, g1)) n2 = none := by
    rw [alook_aset_ne _ _ _ _ (fun he => hnn (he.symm))]
    exact hn2
  have hstep2 : insertar (insertar st n1 g1 h1) n2 g2 h2 =
      ⟨aset (aset st.buckets (g1 + h1) [(n1, g1)]) (g1 + h1) [(n1, g1), (n2, g2)],
       aset (aset st.entrada n1 (g1 + h1, g1)) n2 (g1 + h1, g2),
       some (g1 + h1),
       st.num_elementos + 1 + 1⟩ := by
    rw [hstep1]
    rw [insertar_go (by intro f0 g0 h0; rw [hn2'] at h0; cases h0)]
    rw [hn2']
    rw [← hf]
    rw [alook_aset_self]
    simp
  rw [hstep2]
  have hnz : ¬ (st.num_elementos + 1 + 1 = 0) := by omega
  simp only [extraer_minimo, hnz, if_false]
  simp only [extraerLoop]
  rw [alook_aset_self]
  have hlook1 : alook (aset (aset st.entrada n1 (g1 + h1, g1)) n2 (g1 + h1, g2)) n1 =
      some (g1 + h1, g1) := by
    rw [alook_aset_ne _ _ _ _ hnn, alook_aset_self]
  simp only [drainBucket, hlook1]
  simp

/-- Witness for C10 at a concrete pair of equal-`f` inserts. -/
theorem claim_C10_witness :
    (extraer_minimo (insertar (insertar vacia 4 60 20) 2 50 30)).1 = some (4, 60) :=
  claim_C10 vacia 4 2 60 20 50 30 rfl rfl (by decide) (by decide) rfl
    (by intro m hm; cases hm)

/-! ## Claim C6: graph ingestion -/

/-- Counterexample to claim C6: a line that passes the token-count/`a` (or
`v`) check but whose integer fields do not parse makes loading raise
(`int('x')` is a `ValueError`), so loading does not complete for every text
content. -/
theorem claim_C6_cex :
    cargar_grafo ["a x 2 3"] grafoZvacio = .error () ∧
    cargar_coordenadas ["v 1 y 3"] grafoZvacio = .error () := by
  constructor <;> rfl

/-- Claim C6 as amended: a line failing the shape check (at least 4 tokens,
first token the literal `a` resp. `v`) is silently skipped; and loading
completes without error whenever every line that does pass the shape check
has integer-parseable fields.  (A shape-passing line with a bad integer
field raises, per the counterexample.) -/
theorem claim_C6_amended :
    (∀ (gr : GrafoZ) (linea : String) (rest : List String),
        ¬ (4 ≤ (pySplit linea).length ∧ (pySplit linea).head? = some "a") →
        cargar_grafo (linea :: rest) gr = cargar_grafo rest gr) ∧
    (∀ (gr : GrafoZ) (linea : String) (rest : List String),
        ¬ (4 ≤ (pySplit linea).length ∧ (pySplit linea).head? = some "v") →
        cargar_coordenadas (linea :: rest) gr = cargar_coordenadas rest gr) ∧
    (∀ (gr : GrafoZ) (lineas : List String),
        (∀ linea ∈ lineas,
          (4 ≤ (pySplit linea).length ∧ (pySplit linea).head? = some "a") →
          (pyInt? ((pySplit linea).getD 1 "")).isSome ∧
          (pyInt? ((pySplit linea).getD 2 "")).isSome ∧
          (pyInt? ((pySplit linea).getD 3 "")).isSome) →
        ∃ gr', cargar_grafo lineas gr = .ok gr') ∧
    (∀ (gr : GrafoZ) (lineas : List String),
        (∀ linea ∈ lineas,
          (4 ≤ (pySplit linea).length ∧ (pySplit linea).head? = some "v") →
          (pyInt? ((pySplit linea).getD 1 "")).isSome ∧
          (pyInt? ((pySplit linea).getD 2 "")).isSome ∧
          (pyInt? ((pySplit linea).getD 3 "")).isSome) →
        ∃ gr', cargar_coordenadas lineas gr = .ok gr') := by
  refine ⟨?_, ?_, ?_, ?_⟩
  · intro gr linea rest hshape
    rw [cargar_grafo]
    rw [show cargarGrafoLinea gr linea = .ok gr from by
      rw [cargarGrafoLinea]; rw [if_neg hshape]]
  · intro gr linea rest hshape
    rw [cargar_coordenadas]
    rw [show cargarCoordsLinea gr linea = .ok gr from by
      rw [cargarCoordsLinea]; rw [if_neg hshape]]
  · intro gr lineas
    induction lineas generalizing gr with
    | nil => intro _; exact ⟨gr, rfl⟩
    | cons linea rest ih =>
      intro hall
      rw [cargar_grafo]
      by_cases hshape : 4 ≤ (pySplit linea).length ∧ (pySplit linea).head? = some "a"
      · obtain ⟨h1, h2, h3⟩ := hall linea (by simp) hshape
        obtain ⟨v1, hv1⟩ := Option.isSome_iff_exists.mp h1
        obtain ⟨v2, hv2⟩ := Option.isSome_iff_exists.mp h2
        obtain ⟨v3, hv3⟩ := Option.isSome_iff_exists.mp h3
        rw [show cargarGrafoLinea gr linea = .ok
              { gr with
                adyacencia := zset gr.adyacencia v1
                  (((zlook gr.adyacencia v1).getD []) ++ [(v2, v3)]),
                num_arcos := gr.num_arcos + 1 } from by
          rw [cargarGrafoLinea]; rw [if_pos hshape, hv1, hv2, hv3]]
        exact ih _ (fun l hl => hall l (by simp [hl]))
      · rw [show cargarGrafoLinea gr linea = .ok gr from by
          rw [cargarGrafoLinea]; rw [if_neg hshape]]
        exact ih gr (fun l hl => hall l (by simp [hl]))
  · intro gr lineas
    induction lineas generalizing gr with
    | nil => intro _; exact ⟨gr, rfl⟩
    | cons linea rest ih =>
      intro hall
      rw [cargar_coordenadas]
      by_cases hshape : 4 ≤ (pySplit linea).length ∧ (pySplit linea).head? = some "v"
      · obtain ⟨h1, h2, h3⟩ := hall linea (by simp) hshape
        obtain ⟨v1, hv1⟩ := Option.isSome_iff_exists.mp h1
        obtain ⟨v2, hv2⟩ := Option.isSome_iff_exists.mp h2
        obtain ⟨v3, hv3⟩ := Option.isSome_iff_exists.mp h3
        rw [show cargarCoordsLinea gr linea = .ok
              { gr with
                coordenadas := zset gr.coordenadas v1
                  ((v3 : Rat) / 1000000, (v2 : Rat) / 1000000),
                num_vertices := gr.num_vertices + 1 } from by
          rw [cargarCoordsLinea]; rw [if_pos hshape, hv1, hv2, hv3]]
        exact ih _ (fun l hl => hall l (by simp [hl]))
      · rw [show cargarCoordsLinea gr linea = .ok gr from by
          rw [cargarCoordsLinea]; rw [if_neg hshape]]
        exact ih gr (fun l hl => hall l (by simp [hl]))

/-- Witness for the amended C6: a comment line is skipped, and a stream of
well-shaped records plus noise loads without error. -/
theorem claim_C6_amended_witness :
    cargar_grafo ["c note", "a 1 2 4"] grafoZvacio = cargar_grafo ["a 1 2 4"] grafoZvacio ∧
    (∃ gr', cargar_grafo ["c note", "a 1 2 4", "a 2 3 4", "junk line"] grafoZvacio = .ok gr') ∧
    (∃ gr', cargar_coordenadas ["v 1 100 200", "p aux"] grafoZvacio = .ok gr') :=
  ⟨claim_C6_amended.1 grafoZvacio "c note" ["a 1 2 4"] (by decide),
   claim_C6_amended.2.2.1 grafoZvacio _ (by decide),
   claim_C6_amended.2.2.2 grafoZvacio _ (by decide)⟩

/-! ## Claim C3: missing-coordinate handling -/

/-- Counterexample to claim C3: with an empty coordinate index (origin and
destination both lack coordinates) the Dijkstra solver does not fail with
`VertexNotFound` before the loop — it never consults coordinates at all and
runs to a solved result. -/
theorem claim_C3_cex :
    alook (Grafo.mk 0 0 [] []).coordenadas 1 = none ∧
    resolverDijkstra ⟨0, 0, [], []⟩ 1 1 = (.solved [(1, 0)] 0, 1) ∧
    (Resultado.solved [(1, 0)] 0 : Resultado) ≠ .vertexNotFound := by
  refine ⟨rfl, by decide, by decide⟩

/-- Claim C3 as amended: under the A* strategy a missing origin or
destination coordinate record surfaces as `VertexNotFound` from the
pre-loop `heuristica(origen)` call, with zero expansions — the loop is
never entered.  (Under the zero-heuristic Dijkstra strategy coordinates are
never consulted and no such failure exists, per the counterexample.) -/
theorem claim_C3_amended (gr : Grafo) (hav : Rat × Rat → Rat × Rat → Nat)
    (origen destino : Nat)
    (h : alook gr.coordenadas origen = none ∨ alook gr.coordenadas destino = none) :
    resolverAStar gr hav origen destino = (.vertexNotFound, 0) := by
  have hnone : heuristica gr hav destino origen = none := by
    rw [heuristica]
    rcases h with h | h
    · rw [h]
    · rw [h]
      cases alook gr.coordenadas origen <;> rfl
  rw [resolverAStar, resolver, hnone]

/-- Witness for the amended C3: a graph with one located vertex, queried
from an unlocated origin. -/
theorem claim_C3_amended_witness :
    resolverAStar ⟨1, 0, [], [(2, ((0 : Rat), (0 : Rat)))]⟩ (fun _ _ => 0) 1 2 =
      (.vertexNotFound, 0) :=
  claim_C3_amended _ _ 1 2 (Or.inl rfl)

/-! ## Claim C7: origin equals destination -/

/-- Claim C7: whenever the heuristic value of `v` is available (for A*,
whenever `v` and the destination have coordinates; for Dijkstra, always),
`resolver` with origin = destination = v runs the loop, extracts `v` on the
first iteration, and returns the single-entry path `[(v, 0)]` with cost 0
and exactly one expansion. -/
theorem claim_C7 (gr : Grafo) (hopt : Nat → Option Nat) (v h0 : Nat)
    (h : hopt v = some h0) :
    resolver gr hopt v v = (.solved [(v, 0)] 0, 1) := by
  have hins : insertar vacia v 0 h0 =
      ⟨[(0 + h0, [(v, 0)])], [(v, (0 + h0, 0))], some (0 + h0), 1⟩ := by
    rw [insertar_go (by intro f0 g0 h0'; cases h0')]
    rfl
  have hext : extraer_minimo ⟨[(0 + h0, [(v, 0)])], [(v, (0 + h0, 0))], some (0 + h0), 1⟩ =
      (some (v, 0),
       ⟨aset [(0 + h0, [(v, 0)])] (0 + h0) [], aerase [(v, (0 + h0, 0))] v,
        some (0 + h0), 0⟩) := by
    rw [extraer_minimo]
    rw [if_neg (by simp)]
    dsimp only
    simp only [extraerLoop]
    rw [show alook [(0 + h0, [(v, 0)])] (0 + h0) = some [(v, 0)] from by simp [alook]]
    dsimp only
    rw [show drainBucket [(v, (0 + h0, 0))] (0 + h0) [(v, 0)] = (some (v, 0), []) from by
      rw [drainBucket]
      rw [show alook [(v, (0 + h0, 0))] v = some (0 + h0, 0) from by simp [alook]]
      simp]
  have hrec : reconstruir [(v, (none, 0))] v = [(v, 0)] := by
    rw [reconstruir]
    rw [show ([(v, (none, 0))] : List (Nat × (Option Nat × Nat))).length + 1 = 2 from rfl]
    rw [reconstruirF]
    rw [show alook [(v, (none, 0))] v = some (none, 0) from by simp [alook]]
    rfl
  have hpaso : paso gr hopt v
      ⟨⟨[(0 + h0, [(v, 0)])], [(v, (0 + h0, 0))], some (0 + h0), 1⟩,
       [(v, 0)], [(v, (none, 0))], [], 0⟩ =
      .inl (.solved [(v, 0)] 0, 1) := by
    rw [paso]
    rw [if_neg (by rw [esta_vacia]; simp)]
    rw [hext]
    dsimp only
    rw [if_neg (by simp : ¬ (v ∈ ([] : List Nat)))]
    rw [show alook [(v, 0)] v = some 0 from by simp [alook]]
    dsimp only
    rw [if_neg (by simp)]
    rw [if_pos rfl]
    rw [hrec]
  rw [resolver, h]
  obtain ⟨k, hk⟩ : ∃ k, fuel0 gr v = k + 1 :=
    ⟨((verts gr v).length + 2) * ((verts gr v).length + 2) + 1, by rw [fuel0]⟩
  rw [hk]
  simp only [resolverLoopF]
  rw [hins, hpaso]
  rfl

/-- Witness for C7 on a two-vertex graph queried at a located vertex under
both strategies (the Dijkstra instance discharges the hypothesis with the
literal heuristic 0, the A* instance with the vertex's coordinates). -/
theorem claim_C7_witness :
    resolverDijkstra ⟨1, 1, [(1, [(2, 5)])], [(1, ((0 : Rat), (0 : Rat)))]⟩ 1 1 =
      (.solved [(1, 0)] 0, 1) ∧
    resolverAStar ⟨1, 1, [(1, [(2, 5)])], [(1, ((0 : Rat), (0 : Rat)))]⟩
        (fun _ _ => 0) 1 1 = (.solved [(1, 0)] 0, 1) :=
  ⟨claim_C7 _ _ 1 0 rfl, claim_C7 _ _ 1 0 rfl⟩

/-! ## Paths, distances and heuristic consistency -/

/-- `ReachC gr o v c`: there is a directed path of total weight `c` from
`o` to `v` along the adjacency lists. -/
inductive ReachC (gr : Grafo) : Nat → Nat → Nat → Prop where
  | refl (v : Nat) : ReachC gr v v 0
  | step {u v m w c : Nat} : (v, w) ∈ obtener_sucesores gr u →
      ReachC gr v m c → ReachC gr u m (w + c)

/-- Consistency of a (floored) heuristic over a graph: across every stored
edge, `h u ≤ w + h v`.  (The spec's triangle-inequality condition for the
haversine estimator.) -/
def Consistente (gr : Grafo) (h : Nat → Nat) : Prop :=
  ∀ p ∈ gr.adyacencia, ∀ e ∈ p.2, h p.1 ≤ e.2 + h e.1

instance (gr : Grafo) (h : Nat → Nat) : Decidable (Consistente gr h) := by
  unfold Consistente
  infer_instance

theorem consistente_edge {gr : Grafo} {h : Nat → Nat} (hc : Consistente gr h)
    {u v w : Nat} (he : (v, w) ∈ obtener_sucesores gr u) : h u ≤ w + h v := by
  rw [obtener_sucesores] at he
  cases hl : alook gr.adyacencia u with
  | none => rw [hl] at he; simp at he
  | some l =>
    rw [hl] at he
    exact hc (u, l) (mem_of_alook hl) (v, w) he

/-- The heuristic telescopes along any path (consistency summed up). -/
theorem consistente_telescope {gr : Grafo} {h : Nat → Nat} (hc : Consistente gr h) :
    ∀ {y z r : Nat}, ReachC gr y z r → h y ≤ r + h z := by
  intro y z r hr
  induction hr with
  | refl v => omega
  | step he _ ih =>
    have := consistente_edge hc he
    omega

/-- The zero heuristic (Dijkstra) is consistent on every graph. -/
theorem consistente_cero (gr : Grafo) : Consistente gr (fun _ => 0) := by
  intro p _ e _
  simp

/-! ## Claims C9 and C1: the two strategies compared -/

/-- The graph of the C9 counterexample: 1 → 2 (1), 1 → 3 (2), 2 → 4 (2),
3 → 5 (1); query 1 → 4, shortest cost 3. -/
def grMasExp : Grafo := ⟨0, 0, [(1, [(2, 1), (3, 2)]), (2, [(4, 2)]), (3, [(5, 1)])], []⟩

/-- A consistent, admissible (floored) heuristic towards vertex 4 on
`grMasExp`: exact on 1 and 2, zero elsewhere. -/
def hMasExp : Nat → Nat := fun v => if v = 1 then 2 else if v = 2 then 2 else 0

/-- A graph on which A* expands strictly fewer vertices than Dijkstra:
1 → 2 (1), 1 → 3 (1), 2 → 4 (1); query 1 → 4. -/
def grMenosExp : Grafo := ⟨0, 0, [(1, [(2, 1), (3, 1)]), (2, [(4, 1)])], []⟩

/-- A consistent heuristic towards vertex 4 on `grMenosExp` that steers the
search away from the dead end 3. -/
def hMenosExp : Nat → Nat :=
  fun v => if v = 1 then 2 else if v = 2 then 1 else if v = 3 then 3 else 0

/-- Counterexample to claim C9: on `grMasExp` with the consistent heuristic
`hMasExp`, A* counts 5 expansions while Dijkstra counts 4 — the heuristic
run expands strictly more (both still return the optimal cost 3).  The
extra expansion comes from tie-breaking inside the final `f = 3` bucket. -/
theorem claim_C9_cex :
    Consistente grMasExp hMasExp ∧
    (resolverAStarTotal grMasExp hMasExp 1 4).2 = 5 ∧
    (resolverDijkstra grMasExp 1 4).2 = 4 ∧
    ¬ ((resolverAStarTotal grMasExp hMasExp 1 4).2 ≤ (resolverDijkstra grMasExp 1 4).2) := by
  refine ⟨by decide, by decide, by decide, by decide⟩

/-- Claim C9 as amended: no uniform inequality holds between the two
expansion counters.  Even under a consistent heuristic A*'s count can be
strictly smaller on one query and strictly larger on another, the latter
through tie-breaking among entries at the optimal `f` value. -/
theorem claim_C9_amended :
    (Consistente grMenosExp hMenosExp ∧
      (resolverAStarTotal grMenosExp hMenosExp 1 4).2 <
        (resolverDijkstra grMenosExp 1 4).2) ∧
    (Consistente grMasExp hMasExp ∧
      (resolverDijkstra grMasExp 1 4).2 <
        (resolverAStarTotal grMasExp hMasExp 1 4).2) := by
  refine ⟨⟨by decide, by decide⟩, ⟨by decide, by decide⟩⟩

/-- The graph of the C1 counterexample: 1 → 2 (1), 2 → 3 (1), 1 → 3 (3);
query 1 → 3, true shortest cost 2. -/
def grInconsistente : Grafo := ⟨0, 0, [(1, [(2, 1), (3, 3)]), (2, [(3, 1)])], []⟩

/-- An inconsistent heuristic (overestimates through vertex 2). -/
def hInconsistente : Nat → Nat := fun v => if v = 2 then 10 else 0

/-- Counterexample to claim C1 as stated over every graph and heuristic
value assignment: with an inconsistent heuristic the A* solver returns
cost 3 while Dijkstra returns the true shortest cost 2 — the two solvers
do not agree for every graph. -/
theorem claim_C1_cex :
    (resolverAStarTotal grInconsistente hInconsistente 1 3).1 =
      .solved [(1, 0), (3, 3)] 3 ∧
    (resolverDijkstra grInconsistente 1 3).1 = .solved [(1, 0), (2, 1), (3, 1)] 2 ∧
    ¬ Consistente grInconsistente hInconsistente ∧
    (3 : Nat) ≠ 2 := by
  refine ⟨by decide, by decide, by decide, by decide⟩

/-! ## The parent map encodes a valid path -/

/-- `EsCamino gr pd gm o v c l`: following the parent pointers of `pd` from
`v` reaches the origin `o`, the visited list (origin first) is `l`, each
hop is a stored edge of exactly the recorded weight, and each node's
`g_minimo` entry is the running cost, totalling `c` at `v`. -/
inductive EsCamino (gr : Grafo) (pd : List (Nat × (Option Nat × Nat)))
    (gm : List (Nat × Nat)) (o : Nat) : Nat → Nat → List (Nat × Nat) → Prop where
  | base : alook pd o = some (none, 0) → alook gm o = some 0 →
      EsCamino gr pd gm o o 0 [(o, 0)]
  | step {v p w g l} : alook pd v = some (some p, w) →
      (v, w) ∈ obtener_sucesores gr p → alook gm v = some (g + w) →
      EsCamino gr pd gm o p g l → EsCamino gr pd gm o v (g + w) (l ++ [(v, w)])

/-- Total edge weight of a reported path. -/
def sumaPesos (camino : List (Nat × Nat)) : Nat := (camino.map Prod.snd).sum

/-- Consecutive path vertices are connected by a stored edge of exactly
the recorded weight. -/
def consecutivosConectados (gr : Grafo) : List (Nat × Nat) → Prop
  | [] => True
  | [_] => True
  | (u, wu) :: (v, w) :: rest =>
      (v, w) ∈ obtener_sucesores gr u ∧ consecutivosConectados gr ((v, w) :: rest)

theorem consecutivos_snoc {gr : Grafo} :
    ∀ {l : List (Nat × Nat)} {p wp v w : Nat},
    consecutivosConectados gr l → l.getLast? = some (p, wp) →
    (v, w) ∈ obtener_sucesores gr p →
    consecutivosConectados gr (l ++ [(v, w)]) := by
  intro l
  induction l with
  | nil => intro p wp v w _ hlast _; simp at hlast
  | cons x rest ih =>
    intro p wp v w hc hlast he
    obtain ⟨u, wu⟩ := x
    cases rest with
    | nil =>
      simp at hlast
      obtain ⟨h1, h2⟩ := hlast
      subst h1; subst h2
      exact ⟨he, trivial⟩
    | cons y t =>
      obtain ⟨y1, y2⟩ := y
      obtain ⟨hedge, hrest⟩ := hc
      have hlast' : ((y1, y2) :: t).getLast? = some (p, wp) := by
        rw [List.getLast?_cons_cons] at hlast
        exact hlast
      exact ⟨hedge, ih hrest hlast' he⟩

theorem esCamino_ne_nil {gr : Grafo} {pd : List (Nat × (Option Nat × Nat))}
    {gm : List (Nat × Nat)} {o v c : Nat} {l : List (Nat × Nat)}
    (h : EsCamino gr pd gm o v c l) : l ≠ [] := by
  induction h with
  | base _ _ => simp
  | step _ _ _ _ _ => simp

/-- The structural facts C2 needs about a parent-map path. -/
theorem esCamino_props {gr : Grafo} {pd : List (Nat × (Option Nat × Nat))}
    {gm : List (Nat × Nat)} {o v c : Nat} {l : List (Nat × Nat)}
    (h : EsCamino gr pd gm o v c l) :
    l.head? = some (o, 0) ∧ (∃ wv, l.getLast? = some (v, wv)) ∧
    sumaPesos l = c ∧ consecutivosConectados gr l := by
  induction h with
  | base hpd hgm => exact ⟨rfl, ⟨0, rfl⟩, rfl, trivial⟩
  | step hpd hedge hgm hcam ih =>
    rename_i v' p w g l'
    obtain ⟨ihead, ⟨wp, ilast⟩, isum, icons⟩ := ih
    refine ⟨?_, ⟨w, ?_⟩, ?_, ?_⟩
    · rw [List.head?_append_of_ne_nil _ (esCamino_ne_nil hcam)]
      exact ihead
    · rw [List.getLast?_concat]
    · rw [sumaPesos] at isum ⊢
      simp [isum]
    · exact consecutivos_snoc icons ilast hedge

/-- Every node on a parent-map path has a `padres` record. -/
theorem esCamino_keys_pd {gr : Grafo} {pd : List (Nat × (Option Nat × Nat))}
    {gm : List (Nat × Nat)} {o v c : Nat} {l : List (Nat × Nat)}
    (h : EsCamino gr pd gm o v c l) : ∀ x ∈ akeys l, (alook pd x).isSome := by
  induction h with
  | base hpd _ =>
    intro x hx
    simp [akeys] at hx
    subst hx
    rw [hpd]; rfl
  | step hpd hedge hgm hcam ih =>
    intro x hx
    rw [akeys, List.map_append] at hx
    rcases List.mem_append.mp hx with hx | hx
    · exact ih x hx
    · simp at hx
      subst hx
      rw [hpd]; rfl

/-- A parent-map path is unaffected by updates outside its node set. -/
theorem esCamino_stable {gr : Grafo} {pd pd' : List (Nat × (Option Nat × Nat))}
    {gm gm' : List (Nat × Nat)} {o v c : Nat} {l : List (Nat × Nat)}
    (h : EsCamino gr pd gm o v c l)
    (hpd : ∀ x ∈ akeys l, alook pd' x = alook pd x)
    (hgm : ∀ x ∈ akeys l, alook gm' x = alook gm x) :
    EsCamino gr pd' gm' o v c l := by
  induction h with
  | base hp hg =>
    refine EsCamino.base ?_ ?_
    · rw [hpd o (by simp [akeys])]; exact hp
    · rw [hgm o (by simp [akeys])]; exact hg
  | step hp hedge hg hcam ih =>
    rename_i v' p w g l'
    refine EsCamino.step ?_ hedge ?_ (ih ?_ ?_)
    · rw [hpd v' (by rw [akeys, List.map_append]; simp)]; exact hp
    · rw [hgm v' (by rw [akeys, List.map_append]; simp)]; exact hg
    · intro x hx
      exact hpd x (by rw [akeys, List.map_append]; exact List.mem_append_left _ hx)
    · intro x hx
      exact hgm x (by rw [akeys, List.map_append]; exact List.mem_append_left _ hx)

/-- `reconstruirF` follows exactly the parent chain certified by
`EsCamino`, given enough fuel. -/
theorem reconstruirF_eq {gr : Grafo} {pd : List (Nat × (Option Nat × Nat))}
    {gm : List (Nat × Nat)} {o : Nat} :
    ∀ {v c : Nat} {l : List (Nat × Nat)}, EsCamino gr pd gm o v c l →
    ∀ fuel, l.length ≤ fuel → ∀ acc,
    reconstruirF pd fuel (some v) acc = some (l ++ acc.reverse) := by
  intro v c l h
  induction h with
  | base hp hg =>
    intro fuel hfuel acc
    cases fuel with
    | zero => simp at hfuel
    | succ fuel =>
      rw [reconstruirF.eq_def]
      dsimp only
      rw [hp]
      simp [reconstruirF]
  | step hp hedge hg hcam ih =>
    rename_i v' p w g l'
    intro fuel hfuel acc
    cases fuel with
    | zero => simp at hfuel
    | succ fuel =>
      rw [reconstruirF.eq_def]
      dsimp only
      rw [hp]
      dsimp only
      rw [ih fuel (by simp at hfuel; omega) (acc ++ [(v', w)])]
      simp

/-- The chain nodes are distinct and have `padres` records, so the default
fuel `padres.length + 1` suffices and `reconstruir` returns the certified
path itself. -/
theorem reconstruir_eq {gr : Grafo} {pd : List (Nat × (Option Nat × Nat))}
    {gm : List (Nat × Nat)} {o v c : Nat} {l : List (Nat × Nat)}
    (h : EsCamino gr pd gm o v c l) (hnd : NodupKeys l) :
    reconstruir pd v = l := by
  have hlen : l.length ≤ pd.length := by
    have h1 : (akeys l).length = l.length := by rw [akeys, List.length_map]
    have h2 : ∀ x ∈ akeys l, x ∈ akeys pd := by
      intro x hx
      rw [mem_akeys_iff_isSome]
      exact esCamino_keys_pd h x hx
    have h3 : (akeys l).toFinset.card = (akeys l).length := List.toFinset_card_of_nodup hnd
    have h4 : (akeys l).toFinset ⊆ (akeys pd).toFinset := by
      intro x hx
      rw [List.mem_toFinset] at hx ⊢
      exact h2 x hx
    have h5 : (akeys pd).toFinset.card ≤ (akeys pd).length := List.toFinset_card_le _
    have h6 : (akeys pd).length = pd.length := by rw [akeys, List.length_map]
    have := Finset.card_le_card h4
    omega
  rw [reconstruir, reconstruirF_eq h (pd.length + 1) (by omega) []]
  simp

/-! ## The loop invariant of `resolver` -/

/-- Every edge target belongs to `verts`. -/
theorem mem_verts_of_suc {gr : Grafo} {origen u v w : Nat}
    (h : (v, w) ∈ obtener_sucesores gr u) : v ∈ verts gr origen := by
  rw [obtener_sucesores] at h
  cases hl : alook gr.adyacencia u with
  | none => rw [hl] at h; simp at h
  | some l =>
    rw [hl] at h
    rw [verts]
    refine List.mem_cons_of_mem _ ?_
    rw [List.mem_flatMap]
    exact ⟨(u, l), mem_of_alook hl, List.mem_map_of_mem _ h⟩

/-- Paths compose. -/
theorem reachC_trans {gr : Grafo} : ∀ {a b c1 : Nat}, ReachC gr a b c1 →
    ∀ {d c2 : Nat}, ReachC gr b d c2 → ReachC gr a d (c1 + c2) := by
  intro a b c1 h1
  induction h1 with
  | refl v => intro d c2 h2; simpa using h2
  | step he _ ih =>
    intro d c2 h2
    have := ReachC.step he (ih h2)
    rw [Nat.add_assoc]
    exact this

/-- Extending a path by one stored edge at the end. -/
theorem reachC_snoc {gr : Grafo} {o u v c w : Nat} (h : ReachC gr o u c)
    (he : (v, w) ∈ obtener_sucesores gr u) : ReachC gr o v (c + w) :=
  reachC_trans h (ReachC.step he (ReachC.refl v))

/-- The invariant maintained at every head of the `while` loop (it also
holds just after closing a vertex, mid-iteration, which is how the
expansion sweep is verified).  It does not assume anything about the
heuristic: these are the structural facts true of both strategies. -/
structure InvB (gr : Grafo) (hopt : Nat → Option Nat) (origen destino : Nat)
    (σ : Estado) : Prop where
  wf : WFAbierta σ.abierta
  gmND : NodupKeys σ.g_minimo
  gmO : alook σ.g_minimo origen = some 0
  pdO : alook σ.padres origen = some (none, 0)
  clND : σ.cerrada.Nodup
  dNotCl : destino ∉ σ.cerrada
  clG : ∀ v ∈ σ.cerrada, (alook σ.g_minimo v).isSome
  gmVerts : ∀ v, (alook σ.g_minimo v).isSome → v ∈ verts gr origen
  sync1 : ∀ v f g, alook σ.abierta.entrada v = some (f, g) →
      alook σ.g_minimo v = some g ∧ ∃ hv, hopt v = some hv ∧ f = g + hv
  sync2 : ∀ v g, alook σ.g_minimo v = some g → v ∉ σ.cerrada →
      ∃ f, alook σ.abierta.entrada v = some (f, g)
  disj : ∀ v ∈ σ.cerrada, alook σ.abierta.entrada v = none
  reach : ∀ v g, alook σ.g_minimo v = some g → ReachC gr origen v g
  kPG : ∀ v, (alook σ.g_minimo v).isSome ↔ (alook σ.padres v).isSome
  cam : ∀ v g, alook σ.g_minimo v = some g →
      ∃ l, EsCamino gr σ.padres σ.g_minimo origen v g l ∧
        NodupKeys l ∧ (∀ x ∈ akeys l, x = v ∨ x ∈ σ.cerrada)

/-- The invariant holds at the state `resolver` builds before the loop. -/
theorem invB_init (gr : Grafo) (hopt : Nat → Option Nat) (origen destino h0 : Nat)
    (hh : hopt origen = some h0) :
    InvB gr hopt origen destino
      ⟨insertar vacia origen 0 h0, [(origen, 0)], [(origen, (none, 0))], [], 0⟩ := by
  have hins : insertar vacia origen 0 h0 =
      ⟨[(0 + h0, [(origen, 0)])], [(origen, (0 + h0, 0))], some (0 + h0), 1⟩ := by
    rw [insertar_go (by intro f0 g0 h0'; cases h0')]
    rfl
  constructor
  case wf => exact wf_insertar origen 0 h0 wf_vacia
  case gmND => simp [NodupKeys, akeys]
  case gmO => simp [alook]
  case pdO => simp [alook]
  case clND => exact List.nodup_nil
  case dNotCl => simp
  case clG => intro v hv; simp at hv
  case gmVerts =>
    intro v hv
    rw [show alook [(origen, 0)] v = if v = origen then some 0 else none from rfl] at hv
    by_cases he : v = origen
    · subst he; rw [verts]; simp
    · rw [if_neg he] at hv; simp at hv
  case sync1 =>
    intro v f g hv
    rw [hins] at hv
    rw [show alook [(origen, (0 + h0, 0))] v =
        if v = origen then some (0 + h0, 0) else none from rfl] at hv
    by_cases he : v = origen
    · subst he
      rw [if_pos rfl] at hv
      injection hv with hv
      injection hv with h1 h2
      subst h2
      refine ⟨by simp [alook], h0, hh, by omega⟩
    · rw [if_neg he] at hv; simp at hv
  case sync2 =>
    intro v g hv _
    rw [show alook [(origen, 0)] v = if v = origen then some 0 else none from rfl] at hv
    by_cases he : v = origen
    · subst he
      rw [if_pos rfl] at hv
      injection hv with hv
      subst hv
      rw [hins]
      exact ⟨0 + h0, by simp [alook]⟩
    · rw [if_neg he] at hv; simp at hv
  case disj => intro v hv; simp at hv
  case reach =>
    intro v g hv
    rw [show alook [(origen, 0)] v = if v = origen then some 0 else none from rfl] at hv
    by_cases he : v = origen
    · subst he
      rw [if_pos rfl] at hv
      injection hv with hv
      subst hv
      exact ReachC.refl _
    · rw [if_neg he] at hv; simp at hv
  case kPG =>
    intro v
    rw [show alook [(origen, 0)] v = if v = origen then some 0 else none from rfl,
        show alook [(origen, (none, 0))] v =
          if v = origen then some ((none : Option Nat), 0) else none from rfl]
    by_cases he : v = origen <;> simp [he]
  case cam =>
    intro v g hv
    rw [show alook [(origen, 0)] v = if v = origen then some 0 else none from rfl] at hv
    by_cases he : v = origen
    · subst he
      rw [if_pos rfl] at hv
      injection hv with hv
      subst hv
      refine ⟨[(v, 0)], EsCamino.base (by simp [alook]) (by simp [alook]), ?_, ?_⟩
      · simp [NodupKeys, akeys]
      · intro x hx
        simp [akeys] at hx
        exact Or.inl hx
    · rw [if_neg he] at hv; simp at hv

/-- One relaxation: a strict improvement on a non-closed successor `s` of
the just-closed `nodoActual` updates `g_minimo`, `padres` and the open
list together and keeps the invariant. -/
theorem relajar_preserva {gr : Grafo} {hopt : Nat → Option Nat}
    {origen destino : Nat} {ab : ListaAbierta} {gm : List (Nat × Nat)}
    {pd : List (Nat × (Option Nat × Nat))} {cl : List Nat} {e : Nat}
    {nodoActual gA s w hs : Nat}
    (hinv : InvB gr hopt origen destino ⟨ab, gm, pd, cl, e⟩)
    (hsCl : s ∉ cl) (hnaCl : nodoActual ∈ cl)
    (hgA : alook gm nodoActual = some gA)
    (hedge : (s, w) ∈ obtener_sucesores gr nodoActual)
    (hmej : ∀ previo, alook gm s = some previo → gA + w < previo)
    (hhs : hopt s = some hs) :
    InvB gr hopt origen destino
      ⟨insertar ab s (gA + w) hs, aset gm s (gA + w),
       aset pd s (some nodoActual, w), cl, e⟩ := by
  have hsna : s ≠ nodoActual := fun he => hsCl (he ▸ hnaCl)
  have hsO : s ≠ origen := by
    intro he
    subst he
    have := hmej 0 hinv.gmO
    omega
  have hcase : ∀ f0 g0, alook ab.entrada s = some (f0, g0) → gA + w < g0 := by
    intro f0 g0 h0
    exact hmej g0 (hinv.sync1 s f0 g0 h0).1
  have hent : (insertar ab s (gA + w) hs).entrada =
      aset ab.entrada s ((gA + w) + hs, gA + w) := insertar_entrada hcase
  constructor
  case wf => exact wf_insertar s (gA + w) hs hinv.wf
  case gmND => exact nodupKeys_aset hinv.gmND
  case gmO => rw [alook_aset_ne _ _ _ _ (fun he => hsO he.symm)]; exact hinv.gmO
  case pdO => rw [alook_aset_ne _ _ _ _ (fun he => hsO he.symm)]; exact hinv.pdO
  case clND => exact hinv.clND
  case dNotCl => exact hinv.dNotCl
  case clG =>
    intro v hv
    have hvs : v ≠ s := fun he => hsCl (he ▸ hv)
    rw [alook_aset_ne _ _ _ _ hvs]
    exact hinv.clG v hv
  case gmVerts =>
    intro v hv
    by_cases hvs : v = s
    · subst hvs
      exact mem_verts_of_suc hedge
    · rw [alook_aset_ne _ _ _ _ hvs] at hv
      exact hinv.gmVerts v hv
  case sync1 =>
    intro v f g hv
    rw [hent] at hv
    by_cases hvs : v = s
    · subst hvs
      rw [alook_aset_self] at hv
      injection hv with hv
      injection hv with h1 h2
      subst h1; subst h2
      exact ⟨alook_aset_self _ _ _, hs, hhs, rfl⟩
    · rw [alook_aset_ne _ _ _ _ hvs] at hv
      obtain ⟨hgm, hv2⟩ := hinv.sync1 v f g hv
      rw [alook_aset_ne _ _ _ _ hvs]
      exact ⟨hgm, hv2⟩
  case sync2 =>
    intro v g hv hvcl
    rw [hent]
    by_cases hvs : v = s
    · subst hvs
      rw [alook_aset_self] at hv
      injection hv with hv
      subst hv
      exact ⟨(gA + w) + hs, alook_aset_self _ _ _⟩
    · rw [alook_aset_ne _ _ _ _ hvs] at hv
      obtain ⟨f, hf⟩ := hinv.sync2 v g hv hvcl
      exact ⟨f, by rw [alook_aset_ne _ _ _ _ hvs]; exact hf⟩
  case disj =>
    intro v hv
    have hvs : v ≠ s := fun he => hsCl (he ▸ hv)
    rw [hent, alook_aset_ne _ _ _ _ hvs]
    exact hinv.disj v hv
  case reach =>
    intro v g hv
    by_cases hvs : v = s
    · subst hvs
      rw [alook_aset_self] at hv
      injection hv with hv
      subst hv
      exact reachC_snoc (hinv.reach nodoActual gA hgA) hedge
    · rw [alook_aset_ne _ _ _ _ hvs] at hv
      exact hinv.reach v g hv
  case kPG =>
    intro v
    by_cases hvs : v = s
    · subst hvs
      rw [alook_aset_self, alook_aset_self]
      simp
    · rw [alook_aset_ne _ _ _ _ hvs, alook_aset_ne _ _ _ _ hvs]
      exact hinv.kPG v
  case cam =>
    intro v g hv
    by_cases hvs : v = s
    · subst hvs
      rw [alook_aset_self] at hv
      injection hv with hv
      subst hv
      obtain ⟨lna, hlna, hlnaND, hlnaK⟩ := hinv.cam nodoActual gA hgA
      have hnotin : ∀ x ∈ akeys lna, x ≠ v := by
        intro x hx he
        subst he
        rcases hlnaK x hx with h | h
        · exact hsna h
        · exact hsCl h
      have hstable : EsCamino gr (aset pd v (some nodoActual, w))
          (aset gm v (gA + w)) origen nodoActual gA lna := by
        refine esCamino_stable hlna ?_ ?_
        · intro x hx
          exact alook_aset_ne _ _ _ _ (hnotin x hx)
        · intro x hx
          exact alook_aset_ne _ _ _ _ (hnotin x hx)
      refine ⟨lna ++ [(v, w)],
        EsCamino.step (alook_aset_self _ _ _) hedge (alook_aset_self _ _ _) hstable,
        ?_, ?_⟩
      · rw [NodupKeys, akeys, List.map_append]
        rw [List.nodup_append]
        refine ⟨hlnaND, by simp, ?_⟩
        intro x hx
        simp only [List.map_cons, List.map_nil, List.mem_singleton]
        intro he
        exact hnotin x hx he
      · intro x hx
        rw [akeys, List.map_append] at hx
        rcases List.mem_append.mp hx with hx | hx
        · rcases hlnaK x hx with h | h
          · exact Or.inr (h ▸ hnaCl)
          · exact Or.inr h
        · simp at hx
          exact Or.inl hx
    · rw [alook_aset_ne _ _ _ _ hvs] at hv
      obtain ⟨l, hl, hlND, hlK⟩ := hinv.cam v g hv
      have hnotin : ∀ x ∈ akeys l, x ≠ s := by
        intro x hx he
        subst he
        rcases hlK x hx with h | h
        · exact hvs h.symm
        · exact hsCl h
      refine ⟨l, esCamino_stable hl ?_ ?_, hlND, hlK⟩
      · intro x hx
        exact alook_aset_ne _ _ _ _ (hnotin x hx)
      · intro x hx
        exact alook_aset_ne _ _ _ _ (hnotin x hx)

/-- The successor sweep (the `for sucesor, coste_arco in sucesores` loop)
preserves the invariant; additionally every swept open successor ends
relaxed, `g_minimo` only decreases pointwise, and closed vertices are
untouched. -/
theorem expandir_preserva {gr : Grafo} {hopt : Nat → Option Nat}
    {origen destino nodoActual gA : Nat} {cl : List Nat} {e : Nat}
    (hnaCl : nodoActual ∈ cl) :
    ∀ (lsuc : List (Nat × Nat)) (gm : List (Nat × Nat))
      (pd : List (Nat × (Option Nat × Nat))) (ab : ListaAbierta),
    (∀ p ∈ lsuc, p ∈ obtener_sucesores gr nodoActual) →
    InvB gr hopt origen destino ⟨ab, gm, pd, cl, e⟩ →
    alook gm nodoActual = some gA →
    ∀ gm' pd' ab',
    expandir hopt cl nodoActual gA lsuc gm pd ab = some (gm', pd', ab') →
    InvB gr hopt origen destino ⟨ab', gm', pd', cl, e⟩ ∧
    (∀ v w, (v, w) ∈ lsuc → v ∉ cl → ∃ gv, alook gm' v = some gv ∧ gv ≤ gA + w) ∧
    (∀ v g0, alook gm v = some g0 → ∃ g1, alook gm' v = some g1 ∧ g1 ≤ g0) ∧
    (∀ v, v ∈ cl → alook gm' v = alook gm v) := by
  intro lsuc
  induction lsuc with
  | nil =>
    intro gm pd ab hsub hinv hgA gm' pd' ab' hexp
    rw [expandir] at hexp
    simp only [Option.some.injEq, Prod.mk.injEq] at hexp
    obtain ⟨rfl, rfl, rfl⟩ := hexp
    refine ⟨hinv, ?_, ?_, ?_⟩
    · intro v w hv; simp at hv
    · intro v g0 h0; exact ⟨g0, h0, le_refl g0⟩
    · intro v _; rfl
  | cons p rest ih =>
    obtain ⟨s, w⟩ := p
    intro gm pd ab hsub hinv hgA gm' pd' ab' hexp
    have hedge : (s, w) ∈ obtener_sucesores gr nodoActual :=
      hsub (s, w) (List.mem_cons_self _ _)
    have hsubR : ∀ p ∈ rest, p ∈ obtener_sucesores gr nodoActual :=
      fun p hp => hsub p (List.mem_cons_of_mem _ hp)
    rw [expandir] at hexp
    by_cases hsCl : s ∈ cl
    · rw [if_pos hsCl] at hexp
      obtain ⟨hinv', hb, hc, hd⟩ := ih gm pd ab hsubR hinv hgA gm' pd' ab' hexp
      refine ⟨hinv', ?_, hc, hd⟩
      intro v wv hv hvCl
      rcases List.mem_cons.mp hv with hv | hv
      · exfalso; injection hv with h1 h2; exact hvCl (h1 ▸ hsCl)
      · exact hb v wv hv hvCl
    · rw [if_neg hsCl] at hexp
      simp only at hexp
      cases hls : alook gm s with
      | none =>
        rw [hls] at hexp
        simp only [if_pos] at hexp
        cases hhs : hopt s with
        | none => rw [hhs] at hexp; cases hexp
        | some hsv =>
          rw [hhs] at hexp
          have hmej : ∀ previo, alook gm s = some previo → gA + w < previo := by
            intro previo hcon; rw [hls] at hcon; cases hcon
          have hinvM := relajar_preserva hinv hsCl hnaCl hgA hedge hmej hhs
          have hsna : s ≠ nodoActual := fun he => hsCl (he ▸ hnaCl)
          have hgA' : alook (aset gm s (gA + w)) nodoActual = some gA := by
            rw [alook_aset_ne _ _ _ _ (fun he => hsna he.symm)]; exact hgA
          obtain ⟨hinv', hb, hc, hd⟩ := ih _ _ _ hsubR hinvM hgA' gm' pd' ab' hexp
          refine ⟨hinv', ?_, ?_, ?_⟩
          · intro v wv hv hvCl
            rcases List.mem_cons.mp hv with hv | hv
            · injection hv with h1 h2
              subst h1; subst h2
              obtain ⟨g1, hg1, hle⟩ := hc v (gA + wv) (alook_aset_self _ _ _)
              exact ⟨g1, hg1, hle⟩
            · exact hb v wv hv hvCl
          · intro v g0 h0
            by_cases hvs : v = s
            · subst hvs; rw [hls] at h0; cases h0
            · obtain ⟨g1, hg1, hle⟩ := hc v g0 (by
                rw [alook_aset_ne _ _ _ _ hvs]; exact h0)
              exact ⟨g1, hg1, hle⟩
          · intro v hvCl
            have hvs : v ≠ s := fun he => hsCl (he ▸ hvCl)
            rw [hd v hvCl, alook_aset_ne _ _ _ _ hvs]
      | some previo =>
        rw [hls] at hexp
        by_cases hlt : gA + w < previo
        · rw [if_pos (by simpa using hlt)] at hexp
          cases hhs : hopt s with
          | none => rw [hhs] at hexp; cases hexp
          | some hsv =>
            rw [hhs] at hexp
            have hmej : ∀ p0, alook gm s = some p0 → gA + w < p0 := by
              intro p0 hcon; rw [hls] at hcon; injection hcon with hcon
              subst hcon; exact hlt
            have hinvM := relajar_preserva hinv hsCl hnaCl hgA hedge hmej hhs
            have hsna : s ≠ nodoActual := fun he => hsCl (he ▸ hnaCl)
            have hgA' : alook (aset gm s (gA + w)) nodoActual = some gA := by
              rw [alook_aset_ne _ _ _ _ (fun he => hsna he.symm)]; exact hgA
            obtain ⟨hinv', hb, hc, hd⟩ := ih _ _ _ hsubR hinvM hgA' gm' pd' ab' hexp
            refine ⟨hinv', ?_, ?_, ?_⟩
            · intro v wv hv hvCl
              rcases List.mem_cons.mp hv with hv | hv
              · injection hv with h1 h2
                subst h1; subst h2
                obtain ⟨g1, hg1, hle⟩ := hc v (gA + wv) (alook_aset_self _ _ _)
                exact ⟨g1, hg1, hle⟩
              · exact hb v wv hv hvCl
            · intro v g0 h0
              by_cases hvs : v = s
              · subst hvs
                rw [hls] at h0
                injection h0 with h0
                subst h0
                obtain ⟨g1, hg1, hle⟩ := hc v (gA + w) (alook_aset_self _ _ _)
                exact ⟨g1, hg1, by omega⟩
              · obtain ⟨g1, hg1, hle⟩ := hc v g0 (by
                  rw [alook_aset_ne _ _ _ _ hvs]; exact h0)
                exact ⟨g1, hg1, hle⟩
            · intro v hvCl
              have hvs : v ≠ s := fun he => hsCl (he ▸ hvCl)
              rw [hd v hvCl, alook_aset_ne _ _ _ _ hvs]
        · rw [if_neg (by simpa using hlt)] at hexp
          obtain ⟨hinv', hb, hc, hd⟩ := ih gm pd ab hsubR hinv hgA gm' pd' ab' hexp
          refine ⟨hinv', ?_, hc, hd⟩
          intro v wv hv hvCl
          rcases List.mem_cons.mp hv with hv | hv
          · injection hv with h1 h2
            subst h1; subst h2
            obtain ⟨g1, hg1, hle⟩ := hc v previo hls
            exact ⟨g1, hg1, by omega⟩
          · exact hb v wv hv hvCl

/-- Extracting from a non-empty invariant state: the returned pair is a
fresh (not yet closed) vertex carrying its current `g_minimo` value, its
key `f = g + h` is minimal over all live entries, and appending it to
`cerrada` (with the expansion counter bumped) re-establishes the
invariant. -/
theorem cerrar_preserva {gr : Grafo} {hopt : Nat → Option Nat}
    {origen destino : Nat} {ab : ListaAbierta} {gm : List (Nat × Nat)}
    {pd : List (Nat × (Option Nat × Nat))} {cl : List Nat} {e : Nat}
    (hinv : InvB gr hopt origen destino ⟨ab, gm, pd, cl, e⟩)
    (hne : ab.num_elementos ≠ 0) :
    ∃ nodo f g ab',
      extraer_minimo ab = (some (nodo, g), ab') ∧
      alook gm nodo = some g ∧ nodo ∉ cl ∧
      (∃ hn, hopt nodo = some hn ∧ f = g + hn) ∧
      (∀ v fv gv, alook ab.entrada v = some (fv, gv) → f ≤ fv) ∧
      ab'.num_elementos = ab.num_elementos - 1 ∧
      (nodo ≠ destino →
        InvB gr hopt origen destino ⟨ab', gm, pd, cl ++ [nodo], e + 1⟩) := by
  obtain ⟨nodo, f, g, ab', heq, hlive, hmin, hent, hnum, hwf'⟩ := extraer_spec hinv.wf hne
  obtain ⟨hgm, hn, hhn, hf⟩ := hinv.sync1 nodo f g hlive
  have hnoCl : nodo ∉ cl := by
    intro hcon
    have hd := hinv.disj nodo hcon
    rw [hd] at hlive; cases hlive
  refine ⟨nodo, f, g, ab', heq, hgm, hnoCl, ⟨hn, hhn, hf⟩, hmin, hnum, ?_⟩
  intro hnd
  constructor
  case wf => exact hwf'
  case gmND => exact hinv.gmND
  case gmO => exact hinv.gmO
  case pdO => exact hinv.pdO
  case clND =>
    rw [List.nodup_append]
    refine ⟨hinv.clND, List.nodup_singleton _, ?_⟩
    intro x hx hx2
    simp at hx2
    subst hx2
    exact hnoCl hx
  case dNotCl =>
    intro hcon
    rcases List.mem_append.mp hcon with h | h
    · exact hinv.dNotCl h
    · simp at h; exact hnd h.symm
  case clG =>
    intro v hv
    rcases List.mem_append.mp hv with h | h
    · exact hinv.clG v h
    · simp at h; subst h; rw [hgm]; rfl
  case gmVerts => exact hinv.gmVerts
  case sync1 =>
    intro v fv gv hv
    rw [hent] at hv
    by_cases hvn : v = nodo
    · subst hvn
      rw [alook_aerase_self hinv.wf.entND] at hv
      cases hv
    · rw [alook_aerase_ne _ _ _ hvn] at hv
      exact hinv.sync1 v fv gv hv
  case sync2 =>
    intro v gv hv hvcl
    have hvn : v ≠ nodo := by
      intro he
      exact hvcl (he ▸ List.mem_append_right _ (by simp))
    have hvcl' : v ∉ cl := fun h => hvcl (List.mem_append_left _ h)
    obtain ⟨fv, hfv⟩ := hinv.sync2 v gv hv hvcl'
    refine ⟨fv, ?_⟩
    rw [hent, alook_aerase_ne _ _ _ hvn]
    exact hfv
  case disj =>
    intro v hv
    rw [hent]
    rcases List.mem_append.mp hv with h | h
    · have hvn : v ≠ nodo := fun he => hnoCl (he ▸ h)
      rw [alook_aerase_ne _ _ _ hvn]
      exact hinv.disj v h
    · simp at h
      subst h
      exact alook_aerase_self hinv.wf.entND
  case reach => exact hinv.reach
  case kPG => exact hinv.kPG
  case cam =>
    intro v gv hv
    obtain ⟨l, hl, hlnd, hlk⟩ := hinv.cam v gv hv
    refine ⟨l, hl, hlnd, ?_⟩
    intro x hx
    rcases hlk x hx with h | h
    · exact Or.inl h
    · exact Or.inr (List.mem_append_left _ h)

/-- One `insertar` grows the live count by at most one. -/
theorem insertar_num_le (st : ListaAbierta) (n g h : Nat) :
    (insertar st n g h).num_elementos ≤ st.num_elementos + 1 := by
  unfold insertar
  cases hl : alook st.entrada n with
  | none => simp
  | some p =>
    obtain ⟨f0, g0⟩ := p
    by_cases hle : g0 ≤ g
    · simp [hle]
    · simp only [hle, if_false]
      simp

/-- The expansion sweep performs at most one insert per successor. -/
theorem expandir_num {hopt : Nat → Option Nat} {cl : List Nat} {na gA : Nat} :
    ∀ (lsuc : List (Nat × Nat)) (gm : List (Nat × Nat))
      (pd : List (Nat × (Option Nat × Nat))) (ab : ListaAbierta)
      (gm' : List (Nat × Nat)) (pd' : List (Nat × (Option Nat × Nat)))
      (ab' : ListaAbierta),
    expandir hopt cl na gA lsuc gm pd ab = some (gm', pd', ab') →
    ab'.num_elementos ≤ ab.num_elementos + lsuc.length := by
  intro lsuc
  induction lsuc with
  | nil =>
    intro gm pd ab gm' pd' ab' hexp
    rw [expandir] at hexp
    simp only [Option.some.injEq, Prod.mk.injEq] at hexp
    obtain ⟨_, _, rfl⟩ := hexp
    simp
  | cons p rest ih =>
    obtain ⟨s, w⟩ := p
    intro gm pd ab gm' pd' ab' hexp
    rw [expandir] at hexp
    simp only [List.length_cons]
    by_cases hsCl : s ∈ cl
    · rw [if_pos hsCl] at hexp
      have := ih _ _ _ _ _ _ hexp
      omega
    · rw [if_neg hsCl] at hexp
      simp only at hexp
      cases hls : alook gm s with
      | none =>
        rw [hls] at hexp
        simp only [if_pos] at hexp
        cases hhs : hopt s with
        | none => rw [hhs] at hexp; cases hexp
        | some hsv =>
          rw [hhs] at hexp
          have h1 := ih _ _ _ _ _ _ hexp
          have h2 := insertar_num_le ab s (gA + w) hsv
          omega
      | some previo =>
        rw [hls] at hexp
        by_cases hlt : gA + w < previo
        · rw [if_pos (by simpa using hlt)] at hexp
          cases hhs : hopt s with
          | none => rw [hhs] at hexp; cases hexp
          | some hsv =>
            rw [hhs] at hexp
            have h1 := ih _ _ _ _ _ _ hexp
            have h2 := insertar_num_le ab s (gA + w) hsv
            omega
        · rw [if_neg (by simpa using hlt)] at hexp
          have := ih _ _ _ _ _ _ hexp
          omega

/-- With a total heuristic the sweep never fails. -/
theorem expandir_total (h : Nat → Nat) (cl : List Nat) (na gA : Nat) :
    ∀ (lsuc : List (Nat × Nat)) (gm : List (Nat × Nat))
      (pd : List (Nat × (Option Nat × Nat))) (ab : ListaAbierta),
    ∃ gm' pd' ab',
      expandir (fun v => some (h v)) cl na gA lsuc gm pd ab =
        some (gm', pd', ab') := by
  intro lsuc
  induction lsuc with
  | nil => intro gm pd ab; exact ⟨gm, pd, ab, rfl⟩
  | cons p rest ih =>
    obtain ⟨s, w⟩ := p
    intro gm pd ab
    rw [expandir]
    by_cases hsCl : s ∈ cl
    · rw [if_pos hsCl]
      exact ih gm pd ab
    · rw [if_neg hsCl]
      simp only
      cases hls : alook gm s with
      | none =>
        simp only [if_pos]
        exact ih _ _ _
      | some previo =>
        by_cases hlt : gA + w < previo
        · rw [if_pos (by simpa using hlt)]
          exact ih _ _ _
        · rw [if_neg (by simpa using hlt)]
          exact ih _ _ _

/-- A failing sweep pinpoints a vertex without heuristic value. -/
theorem expandir_none_cause {hopt : Nat → Option Nat} {cl : List Nat}
    {na gA : Nat} :
    ∀ (lsuc : List (Nat × Nat)) (gm : List (Nat × Nat))
      (pd : List (Nat × (Option Nat × Nat))) (ab : ListaAbierta),
    expandir hopt cl na gA lsuc gm pd ab = none → ∃ v, hopt v = none := by
  intro lsuc
  induction lsuc with
  | nil =>
    intro gm pd ab hexp
    rw [expandir] at hexp
    cases hexp
  | cons p rest ih =>
    obtain ⟨s, w⟩ := p
    intro gm pd ab hexp
    rw [expandir] at hexp
    by_cases hsCl : s ∈ cl
    · rw [if_pos hsCl] at hexp
      exact ih _ _ _ hexp
    · rw [if_neg hsCl] at hexp
      simp only at hexp
      cases hls : alook gm s with
      | none =>
        rw [hls] at hexp
        simp only [if_pos] at hexp
        cases hhs : hopt s with
        | none => exact ⟨s, hhs⟩
        | some hsv =>
          rw [hhs] at hexp
          exact ih _ _ _ hexp
      | some previo =>
        rw [hls] at hexp
        by_cases hlt : gA + w < previo
        · rw [if_pos (by simpa using hlt)] at hexp
          cases hhs : hopt s with
          | none => exact ⟨s, hhs⟩
          | some hsv =>
            rw [hhs] at hexp
            exact ih _ _ _ hexp
        · rw [if_neg (by simpa using hlt)] at hexp
          exact ih _ _ _ hexp

/-- Each adjacency list is strictly shorter than the vertex inventory. -/
theorem suc_len_lt (gr : Grafo) (origen u : Nat) :
    (obtener_sucesores gr u).length < (verts gr origen).length := by
  rw [obtener_sucesores, verts]
  cases hl : alook gr.adyacencia u with
  | none => simp
  | some l =>
    simp only [Option.getD_some, List.length_cons]
    have hmem : (u, l) ∈ gr.adyacencia := mem_of_alook hl
    have hle : l.length ≤
        (gr.adyacencia.flatMap (fun p => p.2.map Prod.fst)).length := by
      rw [List.length_flatMap]
      refine List.single_le_sum (fun x _ => Nat.zero_le x) _ ?_
      rw [List.mem_map]
      exact ⟨(u, l), hmem, by simp⟩
    omega

/-- A duplicate-free list of run vertices is no longer than `verts`. -/
theorem nodup_le_verts {gr : Grafo} {origen : Nat} {cl : List Nat}
    (hnd : cl.Nodup) (hsub : ∀ v ∈ cl, v ∈ verts gr origen) :
    cl.length ≤ (verts gr origen).length := by
  have h3 : cl.toFinset.card = cl.length := List.toFinset_card_of_nodup hnd
  have h4 : cl.toFinset ⊆ (verts gr origen).toFinset := by
    intro x hx
    rw [List.mem_toFinset] at hx ⊢
    exact hsub x hx
  have h5 : (verts gr origen).toFinset.card ≤ (verts gr origen).length :=
    List.toFinset_card_le _
  have h6 := Finset.card_le_card h4
  omega

/-- Full case analysis of one loop iteration from an invariant state:
exhausted report on an empty list; destination extracted (with a certified
path of the reported cost, minimal key over the frontier); heuristic
failure (some vertex has no value); or one fresh vertex closed and swept,
with the invariant re-established and the relaxation, monotonicity and
counting facts of the sweep. -/
theorem paso_casos {gr : Grafo} {hopt : Nat → Option Nat}
    {origen destino : Nat} {σ : Estado}
    (hinv : InvB gr hopt origen destino σ) :
    (σ.abierta.num_elementos = 0 ∧
       paso gr hopt destino σ = .inl (.exhausted, σ.expansiones)) ∨
    (∃ g l,
       paso gr hopt destino σ =
         .inl (.solved l g, σ.expansiones + 1) ∧
       alook σ.g_minimo destino = some g ∧
       EsCamino gr σ.padres σ.g_minimo origen destino g l ∧ NodupKeys l ∧
       (∃ hn, hopt destino = some hn ∧
         ∀ v fv gv, alook σ.abierta.entrada v = some (fv, gv) → g + hn ≤ fv)) ∨
    ((∃ v, hopt v = none) ∧
       paso gr hopt destino σ = .inl (.vertexNotFound, σ.expansiones + 1)) ∨
    (∃ σ' nodo g,
       paso gr hopt destino σ = .inr σ' ∧
       InvB gr hopt origen destino σ' ∧
       σ'.cerrada = σ.cerrada ++ [nodo] ∧
       σ'.expansiones = σ.expansiones + 1 ∧
       nodo ∉ σ.cerrada ∧ nodo ≠ destino ∧
       alook σ.g_minimo nodo = some g ∧
       alook σ'.g_minimo nodo = some g ∧
       (∃ hn, hopt nodo = some hn ∧
         ∀ v fv gv, alook σ.abierta.entrada v = some (fv, gv) → g + hn ≤ fv) ∧
       (∀ v w, (v, w) ∈ obtener_sucesores gr nodo → v ∉ σ'.cerrada →
         ∃ gv, alook σ'.g_minimo v = some gv ∧ gv ≤ g + w) ∧
       (∀ v g0, alook σ.g_minimo v = some g0 →
         ∃ g1, alook σ'.g_minimo v = some g1 ∧ g1 ≤ g0) ∧
       (∀ v ∈ σ'.cerrada, alook σ'.g_minimo v = alook σ.g_minimo v) ∧
       σ'.abierta.num_elementos + 1 ≤
         σ.abierta.num_elementos + (obtener_sucesores gr nodo).length) := by
  obtain ⟨ab, gm, pd, cl, e⟩ := σ
  by_cases hz : ab.num_elementos = 0
  · left
    refine ⟨hz, ?_⟩
    rw [paso]
    rw [if_pos (by rw [esta_vacia]; simp [hz])]
  · right
    obtain ⟨nodo, f, g, ab', heq, hgm, hnoCl, ⟨hn, hhn, hf⟩, hmin, hnum, hclose⟩ :=
      cerrar_preserva hinv hz
    by_cases hd : nodo = destino
    · left
      subst hd
      obtain ⟨l, hl, hlnd, hlk⟩ := hinv.cam nodo g hgm
      refine ⟨g, l, ?_, hgm, hl, hlnd, ⟨hn, hhn, ?_⟩⟩
      · rw [paso]
        rw [if_neg (by rw [esta_vacia]; simp [hz])]
        rw [heq]
        dsimp only
        rw [if_neg hnoCl]
        rw [hgm]
        dsimp only
        rw [if_neg (by simp)]
        rw [if_pos rfl]
        rw [reconstruir_eq hl hlnd]
      · intro v fv gv hv
        have := hmin v fv gv hv
        omega
    · right
      have hinvM := hclose hd
      cases hexp : expandir hopt (cl ++ [nodo]) nodo g
          (obtener_sucesores gr nodo) gm pd ab' with
      | none =>
        left
        refine ⟨expandir_none_cause _ _ _ _ hexp, ?_⟩
        rw [paso]
        rw [if_neg (by rw [esta_vacia]; simp [hz])]
        rw [heq]
        dsimp only
        rw [if_neg hnoCl]
        rw [hgm]
        dsimp only
        rw [if_neg (by simp)]
        rw [if_neg hd]
        rw [hexp]
      | some res =>
        right
        obtain ⟨gm', pd', ab''⟩ := res
        have hmem : nodo ∈ cl ++ [nodo] := by simp
        obtain ⟨hinv', hb, hc, hdcl⟩ :=
          expandir_preserva hmem (obtener_sucesores gr nodo) gm pd ab'
            (fun p hp => hp) hinvM hgm gm' pd' ab'' hexp
        refine ⟨⟨ab'', gm', pd', cl ++ [nodo], e + 1⟩, nodo, g, ?_, hinv', rfl, rfl,
          hnoCl, hd, hgm, ?_, ⟨hn, hhn, ?_⟩, hb, hc, hdcl, ?_⟩
        · rw [paso]
          rw [if_neg (by rw [esta_vacia]; simp [hz])]
          rw [heq]
          dsimp only
          rw [if_neg hnoCl]
          rw [hgm]
          dsimp only
          rw [if_neg (by simp)]
          rw [if_neg hd]
          rw [hexp]
        · rw [hdcl nodo hmem]
          exact hgm
        · intro v fv gv hv
          have := hmin v fv gv hv
          omega
        · have h1 := expandir_num _ _ _ _ _ _ _ hexp
          dsimp only
          omega

/-- Any solved report of the loop carries a certified parent-map path. -/
theorem loop_path {gr : Grafo} {hopt : Nat → Option Nat} {origen destino : Nat} :
    ∀ (fuel : Nat) (σ : Estado), InvB gr hopt origen destino σ →
    ∀ cam c e', resolverLoopF gr hopt destino fuel σ = some (.solved cam c, e') →
    cam.head? = some (origen, 0) ∧ (∃ w, cam.getLast? = some (destino, w)) ∧
    sumaPesos cam = c ∧ consecutivosConectados gr cam := by
  intro fuel
  induction fuel with
  | zero =>
    intro σ _ cam c e' h
    rw [resolverLoopF] at h
    cases h
  | succ fuel ih =>
    intro σ hinv cam c e' h
    simp only [resolverLoopF] at h
    rcases paso_casos hinv with ⟨_, hp⟩ |
      ⟨g, l, hp, hgm, hl, hlnd, _⟩ | ⟨_, hp⟩ | ⟨σ', nodo, g, hp, hinv', _⟩
    · rw [hp] at h
      simp at h
    · rw [hp] at h
      simp only [Option.some.injEq, Prod.mk.injEq, Resultado.solved.injEq] at h
      obtain ⟨⟨hcam, hc⟩, _⟩ := h
      subst hcam
      subst hc
      exact esCamino_props hl
    · rw [hp] at h
      simp at h
    · rw [hp] at h
      exact ih σ' hinv' cam c e' h

/-- Claim C2: every solved result of `resolver` (under either strategy's
heuristic) returns a path that starts at the origin with weight 0, ends at
the destination, whose edge weights sum exactly to the reported cost, and
whose consecutive vertices are joined by stored edges of exactly the
recorded weights. -/
theorem claim_C2 (gr : Grafo) (hopt : Nat → Option Nat) (origen destino : Nat)
    (cam : List (Nat × Nat)) (c e : Nat)
    (h : resolver gr hopt origen destino = (.solved cam c, e)) :
    cam.head? = some (origen, 0) ∧ (∃ w, cam.getLast? = some (destino, w)) ∧
    sumaPesos cam = c ∧ consecutivosConectados gr cam := by
  rw [resolver] at h
  cases hh : hopt origen with
  | none =>
    rw [hh] at h
    simp at h
  | some h0 =>
    rw [hh] at h
    dsimp only at h
    cases hres : resolverLoopF gr hopt destino (fuel0 gr origen)
        ⟨insertar vacia origen 0 h0, [(origen, 0)], [(origen, (none, 0))], [], 0⟩ with
    | none =>
      rw [hres] at h
      simp [Option.getD] at h
    | some r =>
      rw [hres] at h
      obtain ⟨r1, e1⟩ := r
      simp only [Option.getD_some] at h
      have h1 : r1 = .solved cam c := congrArg Prod.fst h
      have h2 : e1 = e := congrArg Prod.snd h
      subst h1
      exact loop_path _ _ (invB_init gr hopt origen destino h0 hh) cam c e1 hres

/-- Witness for C2: the zero-heuristic run on the 3-vertex chain
`1 -5-> 2 -7-> 3` returns the solved path `[(1,0),(2,5),(3,7)]` with cost
12, and the theorem's guarantees hold of it. -/
theorem claim_C2_witness :
    ([((1 : Nat), (0 : Nat)), (2, 5), (3, 7)]).head? = some (1, 0) ∧
    (∃ w, ([((1 : Nat), (0 : Nat)), (2, 5), (3, 7)]).getLast? = some (3, w)) ∧
    sumaPesos [(1, 0), (2, 5), (3, 7)] = 12 ∧
    consecutivosConectados ⟨3, 2, [(1, [(2, 5)]), (2, [(3, 7)])], []⟩
      [(1, 0), (2, 5), (3, 7)] :=
  claim_C2 ⟨3, 2, [(1, [(2, 5)]), (2, [(3, 7)])], []⟩ (fun _ => some 0) 1 3
    [(1, 0), (2, 5), (3, 7)] 12 3 (by decide)

/-- The search states reachable during a run of `resolver`: the state
built just before the loop, closed under non-terminal loop iterations. -/
inductive SearchReach (gr : Grafo) (hopt : Nat → Option Nat)
    (origen destino : Nat) : Estado → Prop where
  | init (h0 : Nat) : hopt origen = some h0 →
      SearchReach gr hopt origen destino
        ⟨insertar vacia origen 0 h0, [(origen, 0)], [(origen, (none, 0))], [], 0⟩
  | step (σ σ' : Estado) : SearchReach gr hopt origen destino σ →
      paso gr hopt destino σ = .inr σ' → SearchReach gr hopt origen destino σ'

/-- The structural invariant holds at every reachable search state. -/
theorem searchReach_invB {gr : Grafo} {hopt : Nat → Option Nat}
    {origen destino : Nat} {σ : Estado}
    (h : SearchReach gr hopt origen destino σ) :
    InvB gr hopt origen destino σ := by
  induction h with
  | init h0 hh => exact invB_init gr hopt origen destino h0 hh
  | step σ σ' _ hp ih =>
    rcases paso_casos ih with ⟨_, hq⟩ | ⟨g, l, hq, _⟩ | ⟨_, hq⟩ |
      ⟨σ'', nodo, g, hq, hinv', _⟩
    · rw [hp] at hq; cases hq
    · rw [hp] at hq; cases hq
    · rw [hp] at hq; cases hq
    · rw [hp] at hq
      injection hq with hq
      exact hq ▸ hinv'

/-- Claim C8: at every state reachable during a run, each live frontier
entry `nodo ↦ (f, g)` records exactly the best cost discovered so far
(`g` is the current `g_minimo[nodo]`, the cost of a discovered path from
the origin), and no closed vertex has a live frontier entry, so a closed
vertex is never reinserted. -/
theorem claim_C8 {gr : Grafo} {hopt : Nat → Option Nat}
    {origen destino : Nat} {σ : Estado}
    (h : SearchReach gr hopt origen destino σ) :
    (∀ v f g, alook σ.abierta.entrada v = some (f, g) →
       alook σ.g_minimo v = some g ∧ ReachC gr origen v g) ∧
    (∀ v ∈ σ.cerrada, alook σ.abierta.entrada v = none) := by
  have hinv := searchReach_invB h
  refine ⟨?_, hinv.disj⟩
  intro v f g hv
  obtain ⟨hgm, _⟩ := hinv.sync1 v f g hv
  exact ⟨hgm, hinv.reach v g hgm⟩

/-- Witness for C8: the initial state of the zero-heuristic run on the
two-vertex graph `1 -5-> 2`, reachable by the `init` rule. -/
theorem claim_C8_witness :
    (∀ v f g,
       alook (⟨insertar vacia 1 0 0, [(1, 0)], [(1, (none, 0))], [], 0⟩ :
           Estado).abierta.entrada v = some (f, g) →
       alook (⟨insertar vacia 1 0 0, [(1, 0)], [(1, (none, 0))], [], 0⟩ :
           Estado).g_minimo v = some g ∧
       ReachC ⟨2, 1, [(1, [(2, 5)])], []⟩ 1 v g) ∧
    (∀ v ∈ (⟨insertar vacia 1 0 0, [(1, 0)], [(1, (none, 0))], [], 0⟩ :
        Estado).cerrada,
       alook (⟨insertar vacia 1 0 0, [(1, 0)], [(1, (none, 0))], [], 0⟩ :
           Estado).abierta.entrada v = none) :=
  @claim_C8 ⟨2, 1, [(1, [(2, 5)])], []⟩ (fun _ => some 0) 1 2 _
    (SearchReach.init 0 rfl)

/-! ## Optimality under a consistent heuristic (C1) -/

/-- The optimality invariant: every closed vertex carries a least path
cost, and every stored edge out of a closed vertex is relaxed. -/
structure InvO (gr : Grafo) (origen : Nat) (σ : Estado) : Prop where
  optCl : ∀ v ∈ σ.cerrada, ∀ g, alook σ.g_minimo v = some g →
      ∀ c, ReachC gr origen v c → g ≤ c
  relaxed : ∀ u ∈ σ.cerrada, ∀ gu, alook σ.g_minimo u = some gu →
      ∀ v w, (v, w) ∈ obtener_sucesores gr u →
      ∃ gv, alook σ.g_minimo v = some gv ∧ gv ≤ gu + w

/-- The optimality invariant holds vacuously while nothing is closed. -/
theorem invO_init (gr : Grafo) (origen : Nat) (ab0 : ListaAbierta)
    (gm0 : List (Nat × Nat)) (pd0 : List (Nat × (Option Nat × Nat)))
    (e : Nat) : InvO gr origen ⟨ab0, gm0, pd0, [], e⟩ :=
  ⟨fun v hv => by simp at hv, fun u hu => by simp at hu⟩

/-- Coverage: walking any path whose start already has a `g_minimo` record
bounded by the accumulated cost, some vertex outside the closed set has an
`f`-value at most the path's total plus the endpoint's heuristic. -/
theorem cobertura_aux {gr : Grafo} {h : Nat → Nat} {origen : Nat}
    {σ : Estado} (hO : InvO gr origen σ) (hcons : Consistente gr h) :
    ∀ {u t c : Nat}, ReachC gr u t c →
    ∀ gu, alook σ.g_minimo u = some gu → ∀ cu, gu ≤ cu → t ∉ σ.cerrada →
    ∃ x gx, x ∉ σ.cerrada ∧ alook σ.g_minimo x = some gx ∧
      gx + h x ≤ (cu + c) + h t := by
  intro u t c hr
  induction hr with
  | refl v =>
    intro gu hgu cu hle htc
    exact ⟨v, gu, htc, hgu, by omega⟩
  | step he hr' ih =>
    rename_i u' v m w c'
    intro gu hgu cu hle htc
    by_cases huc : u' ∈ σ.cerrada
    · obtain ⟨gv, hgv, hgvle⟩ := hO.relaxed u' huc gu hgu v w he
      obtain ⟨x, gx, hx1, hx2, hx3⟩ := ih gv hgv (cu + w) (by omega) htc
      exact ⟨x, gx, hx1, hx2, by omega⟩
    · refine ⟨u', gu, huc, hgu, ?_⟩
      have htel : h u' ≤ (w + c') + h m :=
        consistente_telescope hcons (ReachC.step he hr')
      omega

/-- Coverage from the origin: any path to an unclosed target leaves an
unclosed vertex whose `g + h` is at most the path cost plus the target's
heuristic. -/
theorem cobertura {gr : Grafo} {h : Nat → Nat} {origen destino : Nat}
    {σ : Estado} (hinv : InvB gr (fun v => some (h v)) origen destino σ)
    (hO : InvO gr origen σ) (hcons : Consistente gr h) :
    ∀ t c, ReachC gr origen t c → t ∉ σ.cerrada →
    ∃ x gx, x ∉ σ.cerrada ∧ alook σ.g_minimo x = some gx ∧
      gx + h x ≤ c + h t := by
  intro t c hr htc
  obtain ⟨x, gx, h1, h2, h3⟩ :=
    cobertura_aux hO hcons hr 0 hinv.gmO 0 (le_refl 0) htc
  exact ⟨x, gx, h1, h2, by omega⟩

/-- A vertex extracted with globally minimal key under a consistent
heuristic carries a least path cost. -/
theorem extraccion_optima {gr : Grafo} {h : Nat → Nat} {origen destino : Nat}
    {σ : Estado} (hinv : InvB gr (fun v => some (h v)) origen destino σ)
    (hO : InvO gr origen σ) (hcons : Consistente gr h)
    {nodo g : Nat} (hnoCl : nodo ∉ σ.cerrada)
    (hmin : ∀ v fv gv, alook σ.abierta.entrada v = some (fv, gv) →
      g + h nodo ≤ fv) :
    ∀ c, ReachC gr origen nodo c → g ≤ c := by
  intro c hr
  obtain ⟨x, gx, hx1, hx2, hx3⟩ := cobertura hinv hO hcons nodo c hr hnoCl
  obtain ⟨fx, hfx⟩ := hinv.sync2 x gx hx2 hx1
  obtain ⟨hgmx, hv, hhv, hfeq⟩ := hinv.sync1 x fx gx hfx
  have hhx : h x = hv := by injection hhv
  have hm := hmin x fx gx hfx
  omega

/-- With the invariants in place, an empty frontier means the destination
is unreachable. -/
theorem exhausted_unreachable {gr : Grafo} {h : Nat → Nat}
    {origen destino : Nat} {σ : Estado}
    (hinv : InvB gr (fun v => some (h v)) origen destino σ)
    (hO : InvO gr origen σ) (hcons : Consistente gr h)
    (hz : σ.abierta.num_elementos = 0) :
    ∀ c, ¬ ReachC gr origen destino c := by
  intro c hr
  obtain ⟨x, gx, hx1, hx2, _⟩ :=
    cobertura hinv hO hcons destino c hr hinv.dNotCl
  obtain ⟨fx, hfx⟩ := hinv.sync2 x gx hx2 hx1
  have hlen := hinv.wf.numEq
  rw [hz] at hlen
  have hnil : σ.abierta.entrada = [] := List.length_eq_zero.mp hlen.symm
  rw [hnil] at hfx
  simp [alook] at hfx

/-- One non-terminal iteration preserves the optimality invariant. -/
theorem paso_invO {gr : Grafo} {h : Nat → Nat} {origen destino : Nat}
    {σ σ' : Estado} (hinv : InvB gr (fun v => some (h v)) origen destino σ)
    (hO : InvO gr origen σ) (hcons : Consistente gr h)
    (hp : paso gr (fun v => some (h v)) destino σ = .inr σ') :
    InvO gr origen σ' := by
  rcases paso_casos hinv with ⟨_, hq⟩ | ⟨g, l, hq, _⟩ | ⟨_, hq⟩ |
    ⟨σ'', nodo, g, hq, hinv', hcl, _, hnoCl, _, hgm, hgm', ⟨hn, hhn, hmin⟩,
     hb, hc, hd, _⟩
  · rw [hp] at hq; cases hq
  · rw [hp] at hq; cases hq
  · rw [hp] at hq; cases hq
  · rw [hp] at hq
    injection hq with hq
    subst hq
    have hnh : h nodo = hn := by injection hhn
    have hopt_nodo : ∀ c, ReachC gr origen nodo c → g ≤ c := by
      refine extraccion_optima hinv hO hcons hnoCl ?_
      intro v fv gv hv
      have := hmin v fv gv hv
      omega
    constructor
    · intro v hv gv hgv c hr
      rw [hcl] at hv
      rcases List.mem_append.mp hv with hvc | hvc
      · have he := hd v (by rw [hcl]; exact List.mem_append_left _ hvc)
        rw [he] at hgv
        exact hO.optCl v hvc gv hgv c hr
      · simp at hvc
        subst hvc
        rw [hgm'] at hgv
        injection hgv with hgv
        subst hgv
        exact hopt_nodo c hr
    · intro u hu gu hgu v w he
      rw [hcl] at hu
      rcases List.mem_append.mp hu with huc | huc
      · have heq := hd u (by rw [hcl]; exact List.mem_append_left _ huc)
        rw [heq] at hgu
        obtain ⟨gv, hgv, hgvle⟩ := hO.relaxed u huc gu hgu v w he
        obtain ⟨g1, hg1, hg1le⟩ := hc v gv hgv
        exact ⟨g1, hg1, by omega⟩
      · simp at huc
        subst huc
        rw [hgm'] at hgu
        injection hgu with hgu
        subst hgu
        by_cases hvcl : v ∈ σ'.cerrada
        · have heqv := hd v hvcl
          rw [hcl] at hvcl
          rcases List.mem_append.mp hvcl with hvc | hvc
          · have hrv : ReachC gr origen v (g + w) :=
              reachC_snoc (hinv.reach u g hgm) he
            obtain ⟨gv, hgv⟩ :=
              Option.isSome_iff_exists.mp (hinv.clG v hvc)
            exact ⟨gv, by rw [heqv]; exact hgv,
              hO.optCl v hvc gv hgv (g + w) hrv⟩
          · simp at hvc
            subst hvc
            exact ⟨g, hgm', by omega⟩
        · exact hb v w he hvcl

/-- The termination measure of the `while` loop: closing a vertex buys
enough budget for all inserts its sweep can perform. -/
def medida (gr : Grafo) (origen : Nat) (σ : Estado) : Nat :=
  ((verts gr origen).length + 1 - σ.cerrada.length) *
      ((verts gr origen).length + 2) +
    σ.abierta.num_elementos

/-- A non-terminal iteration keeps the invariant and strictly decreases
the measure. -/
theorem paso_inr_invB_medida {gr : Grafo} {hopt : Nat → Option Nat}
    {origen destino : Nat} {σ σ' : Estado}
    (hinv : InvB gr hopt origen destino σ)
    (hp : paso gr hopt destino σ = .inr σ') :
    InvB gr hopt origen destino σ' ∧
      medida gr origen σ' < medida gr origen σ := by
  rcases paso_casos hinv with ⟨_, hq⟩ | ⟨g, l, hq, _⟩ | ⟨_, hq⟩ |
    ⟨σ'', nodo, g, hq, hinv', hcl, _, hnoCl, _, _, _, _, _, _, _, hnum⟩
  · rw [hp] at hq; cases hq
  · rw [hp] at hq; cases hq
  · rw [hp] at hq; cases hq
  · rw [hp] at hq
    injection hq with hq
    subst hq
    refine ⟨hinv', ?_⟩
    have hsub : ∀ v ∈ σ'.cerrada, v ∈ verts gr origen := by
      intro v hv
      exact hinv'.gmVerts v (hinv'.clG v hv)
    have hlecl : σ'.cerrada.length ≤ (verts gr origen).length :=
      nodup_le_verts hinv'.clND hsub
    have hL := suc_len_lt gr origen nodo
    rw [medida, medida, hcl]
    rw [hcl, List.length_append] at hlecl
    simp only [List.length_append, List.length_singleton]
    have hk : σ.cerrada.length + 1 ≤ (verts gr origen).length := hlecl
    have hsplit : ((verts gr origen).length + 1 - σ.cerrada.length) *
        ((verts gr origen).length + 2) =
        ((verts gr origen).length + 1 - (σ.cerrada.length + 1)) *
          ((verts gr origen).length + 2) + ((verts gr origen).length + 2) := by
      have h1 : (verts gr origen).length + 1 - σ.cerrada.length =
          ((verts gr origen).length + 1 - (σ.cerrada.length + 1)) + 1 := by
        omega
      rw [h1, Nat.succ_mul]
    rw [hsplit]
    generalize ((verts gr origen).length + 1 - (σ.cerrada.length + 1)) *
      ((verts gr origen).length + 2) = t
    omega

/-- With fuel above the measure the loop cannot run out. -/
theorem loop_total {gr : Grafo} {hopt : Nat → Option Nat}
    {origen destino : Nat} :
    ∀ (fuel : Nat) (σ : Estado), InvB gr hopt origen destino σ →
    medida gr origen σ < fuel →
    ∃ r, resolverLoopF gr hopt destino fuel σ = some r := by
  intro fuel
  induction fuel with
  | zero =>
    intro σ _ hlt
    omega
  | succ fuel ih =>
    intro σ hinv hlt
    simp only [resolverLoopF]
    cases hp : paso gr hopt destino σ with
    | inl r => exact ⟨r, rfl⟩
    | inr σ' =>
      obtain ⟨hinv', hdec⟩ := paso_inr_invB_medida hinv hp
      exact ih σ' hinv' (by omega)

/-- The fuel `resolver` passes exceeds the initial measure. -/
theorem fuel0_gt (gr : Grafo) (origen h0 : Nat) :
    medida gr origen
        ⟨insertar vacia origen 0 h0, [(origen, 0)], [(origen, (none, 0))],
         [], 0⟩ <
      fuel0 gr origen := by
  have hnum : (insertar vacia origen 0 h0).num_elementos = 1 := rfl
  rw [medida, fuel0]
  dsimp only
  rw [hnum]
  simp only [List.length_nil, Nat.sub_zero]
  have hmul : ((verts gr origen).length + 1) * ((verts gr origen).length + 2) ≤
      ((verts gr origen).length + 2) * ((verts gr origen).length + 2) :=
    Nat.mul_le_mul_right _ (by omega)
  generalize hA : ((verts gr origen).length + 1) *
    ((verts gr origen).length + 2) = a at hmul ⊢
  generalize hB : ((verts gr origen).length + 2) *
    ((verts gr origen).length + 2) = b at hmul ⊢
  omega

/-- With both invariants and a consistent heuristic, the loop either
reports exhaustion on an unreachable destination, or solves at a least
path cost. -/
theorem loop_opt {gr : Grafo} {h : Nat → Nat} {origen destino : Nat}
    (hcons : Consistente gr h) :
    ∀ (fuel : Nat) (σ : Estado),
    InvB gr (fun v => some (h v)) origen destino σ → InvO gr origen σ →
    ∀ r e', resolverLoopF gr (fun v => some (h v)) destino fuel σ =
      some (r, e') →
    (r = .exhausted ∧ ∀ c, ¬ ReachC gr origen destino c) ∨
    (∃ cam c, r = .solved cam c ∧ ReachC gr origen destino c ∧
       ∀ c', ReachC gr origen destino c' → c ≤ c') := by
  intro fuel
  induction fuel with
  | zero =>
    intro σ _ _ r e' hres
    rw [resolverLoopF] at hres
    cases hres
  | succ fuel ih =>
    intro σ hinv hO r e' hres
    simp only [resolverLoopF] at hres
    rcases paso_casos hinv with ⟨hz, hp⟩ |
      ⟨g, l, hp, hgm, hl, hlnd, ⟨hn, hhn, hmin⟩⟩ | ⟨⟨v, hv⟩, hp⟩ |
      ⟨σ', nodo, g, hp, hinv', _⟩
    · rw [hp] at hres
      simp only [Option.some.injEq, Prod.mk.injEq] at hres
      refine Or.inl ⟨hres.1.symm, ?_⟩
      exact exhausted_unreachable hinv hO hcons hz
    · rw [hp] at hres
      simp only [Option.some.injEq, Prod.mk.injEq] at hres
      refine Or.inr ⟨l, g, hres.1.symm, hinv.reach destino g hgm, ?_⟩
      have hnh : h destino = hn := by injection hhn
      refine extraccion_optima hinv hO hcons hinv.dNotCl ?_
      intro v fv gv hvv
      have := hmin v fv gv hvv
      omega
    · simp at hv
    · rw [hp] at hres
      exact ih σ' hinv' (paso_invO hinv hO hcons hp) r e' hres

/-- With a consistent total heuristic, `resolver` solves exactly the
reachable queries, at a least path cost, and otherwise exhausts. -/
theorem resolver_opt (gr : Grafo) (h : Nat → Nat) (origen destino : Nat)
    (hcons : Consistente gr h) :
    (∃ cam c e,
       resolver gr (fun v => some (h v)) origen destino = (.solved cam c, e) ∧
       ReachC gr origen destino c ∧
       ∀ c', ReachC gr origen destino c' → c ≤ c') ∨
    ((∃ e, resolver gr (fun v => some (h v)) origen destino =
        (.exhausted, e)) ∧
     ∀ c, ¬ ReachC gr origen destino c) := by
  have hinv0 := invB_init gr (fun v => some (h v)) origen destino (h origen) rfl
  have hO0 := invO_init gr origen (insertar vacia origen 0 (h origen))
    [(origen, 0)] [(origen, (none, 0))] 0
  obtain ⟨r, hres⟩ := loop_total (fuel0 gr origen)
    ⟨insertar vacia origen 0 (h origen), [(origen, 0)],
     [(origen, (none, 0))], [], 0⟩ hinv0 (fuel0_gt gr origen (h origen))
  obtain ⟨r1, e1⟩ := r
  have hval : resolver gr (fun v => some (h v)) origen destino = (r1, e1) := by
    rw [resolver]
    dsimp only
    rw [hres]
    rfl
  rcases loop_opt hcons (fuel0 gr origen) _ hinv0 hO0 r1 e1 hres with
    ⟨hex, hun⟩ | ⟨cam, c, hsv, hr, hm⟩
  · exact Or.inr ⟨⟨e1, by rw [hval, hex]⟩, hun⟩
  · exact Or.inl ⟨cam, c, e1, by rw [hval, hsv], hr, hm⟩

/-- Claim C1 (amended): under a *consistent* heuristic the two strategies
agree — for a reachable destination both solve at the same, least path
cost; for an unreachable destination both exhaust.  (Without consistency
the costs can differ: see the counterexample.) -/
theorem claim_C1_amended (gr : Grafo) (h : Nat → Nat) (origen destino : Nat)
    (hcons : Consistente gr h) :
    (∃ cam1 cam2 c e1 e2,
       resolverAStarTotal gr h origen destino = (.solved cam1 c, e1) ∧
       resolverDijkstra gr origen destino = (.solved cam2 c, e2) ∧
       ReachC gr origen destino c ∧
       ∀ c', ReachC gr origen destino c' → c ≤ c') ∨
    ((∃ e1, resolverAStarTotal gr h origen destino = (.exhausted, e1)) ∧
     (∃ e2, resolverDijkstra gr origen destino = (.exhausted, e2)) ∧
     ∀ c, ¬ ReachC gr origen destino c) := by
  have hA := resolver_opt gr h origen destino hcons
  have hD := resolver_opt gr (fun _ => 0) origen destino (consistente_cero gr)
  rcases hA with ⟨cam1, c1, e1, hA1, hr1, hm1⟩ | ⟨⟨e1, hA1⟩, hu1⟩
  · rcases hD with ⟨cam2, c2, e2, hD1, hr2, hm2⟩ | ⟨⟨e2, hD1⟩, hu2⟩
    · have hc12 : c1 = c2 := Nat.le_antisymm (hm1 c2 hr2) (hm2 c1 hr1)
      subst hc12
      exact Or.inl ⟨cam1, cam2, c1, e1, e2, hA1, hD1, hr1, hm1⟩
    · exact absurd hr1 (hu2 c1)
  · rcases hD with ⟨cam2, c2, e2, hD1, hr2, hm2⟩ | ⟨⟨e2, hD1⟩, hu2⟩
    · exact absurd hr2 (hu1 c2)
    · exact Or.inr ⟨⟨e1, hA1⟩, ⟨e2, hD1⟩, hu1⟩

/-- Witness for the amended C1 on the two-vertex graph `1 -5-> 2` with the
(consistent) zero heuristic. -/
theorem claim_C1_amended_witness :
    Consistente ⟨2, 1, [(1, [(2, 5)])], []⟩ (fun _ => 0) ∧
    ((∃ cam1 cam2 c e1 e2,
       resolverAStarTotal ⟨2, 1, [(1, [(2, 5)])], []⟩ (fun _ => 0) 1 2 =
         (.solved cam1 c, e1) ∧
       resolverDijkstra ⟨2, 1, [(1, [(2, 5)])], []⟩ 1 2 =
         (.solved cam2 c, e2) ∧
       ReachC ⟨2, 1, [(1, [(2, 5)])], []⟩ 1 2 c ∧
       ∀ c', ReachC ⟨2, 1, [(1, [(2, 5)])], []⟩ 1 2 c' → c ≤ c') ∨
     ((∃ e1, resolverAStarTotal ⟨2, 1, [(1, [(2, 5)])], []⟩ (fun _ => 0) 1 2 =
         (.exhausted, e1)) ∧
      (∃ e2, resolverDijkstra ⟨2, 1, [(1, [(2, 5)])], []⟩ 1 2 =
         (.exhausted, e2)) ∧
      ∀ c, ¬ ReachC ⟨2, 1, [(1, [(2, 5)])], []⟩ 1 2 c)) :=
  ⟨by decide, claim_C1_amended ⟨2, 1, [(1, [(2, 5)])], []⟩ (fun _ => 0) 1 2
    (by decide)⟩

end P2
